import Mathlib

/-!
# Verification of the prouter route matcher and lazy-resolution engine

This development is a shallow embedding of the algorithmic core of prouter
(src/prouter.js, v0.1.0; the v0.2.0 variant with lazy components lives in
the `RouterV2` namespace):

* the recursive segment matcher `match(routes, segments, index)`
  (`matchOne`/`matchRoutes`);
* the `preload` loop and its interleaving with a concurrent second call,
  modelled as a small-step system whose atomic steps are the synchronous
  blocks between `await` suspension points;
* the params merge done by `Router.render`;
* `navigate`/`notify` over the pluggable source;
* a heap-instrumented variant of `match` used to state its frame property.

Components, fallbacks and loader functions are opaque to the core and are
represented by numeric handles.  JS object identity of route nodes is
represented by a numeric `nid` field.  String operations taken from the
source (`split("/").filter(Boolean)`, `startsWith(":")`, `slice(1)`) are
defined at character level so that every definition evaluates by kernel
reduction.
-/

namespace Prouter

def splitSlash (s : String) : List String :=
  (s.toList.foldr
    (fun c acc =>
      if c = '/' then [] :: acc
      else match acc with
        | g :: gs => (c :: g) :: gs
        | [] => [[c]])
    [[]]).map (fun cs => String.mk cs)

def splitSeg (s : String) : List String :=
  (splitSlash s).filter (fun t => t ≠ "")

def startsColon (s : String) : Bool := s.toList.head? = some ':'

def strTail (s : String) : String := String.mk (s.toList.drop 1)

def segsOfPath : Option String → List String
  | none => []
  | some p => splitSeg p

mutual
inductive Route : Type where
  | mk (nid : Nat) (path : Option String) (component : Nat) (fallback : Option Nat)
       (err : Bool) (children : Kids)
  deriving DecidableEq
inductive Kids : Type where
  | lazyFn (loader : Nat)
  | lazyPromise (loader : Nat)
  | rlist (rs : Routes)
  deriving DecidableEq
inductive Routes : Type where
  | nil
  | cons (r : Route) (rs : Routes)
  deriving DecidableEq
end

def Route.nid : Route → Nat | .mk n _ _ _ _ _ => n
def Route.path : Route → Option String | .mk _ p _ _ _ _ => p
def Route.children : Route → Kids | .mk _ _ _ _ _ c => c
def Route.err : Route → Bool | .mk _ _ _ _ e _ => e

def Routes.toList : Routes → List Route
  | .nil => []
  | .cons r rs => r :: Routes.toList rs

mutual
def Route.allNodes : Route → List Route
  | .mk n p c f e ch => .mk n p c f e ch :: Kids.allNodes ch
def Kids.allNodes : Kids → List Route
  | .lazyFn _ => []
  | .lazyPromise _ => []
  | .rlist rs => Routes.allNodes rs
def Routes.allNodes : Routes → List Route
  | .nil => []
  | .cons r rs => Route.allNodes r ++ Routes.allNodes rs
end

def pathSegs (r : Route) : List String := segsOfPath r.path

structure RouteMatch : Type where
  route : Route
  params : List (String × String)
deriving DecidableEq

def pset : List (String × String) → String → String → List (String × String)
  | [], k, v => [(k, v)]
  | (k', v') :: rest, k, v =>
    if k' = k then (k, v) :: rest else (k', v') :: pset rest k v

def matchSegs : List String → List String → Nat → List (String × String) →
    Option (List (String × String))
  | [], _, _, params => some params
  | pseg :: rest, segments, i, params =>
    if startsColon pseg then
      matchSegs rest segments (i + 1)
        (pset params (strTail pseg) ((segments.get? i).getD ""))
    else if segments.get? i = some pseg then
      matchSegs rest segments (i + 1) params
    else none

mutual
/-- The body of the `rte:` loop of `match` for one route node
    (src/prouter.js lines 432-466).  `some result` models `return result`:
    the guard returning `[]`, the lazy-children partial match, the chain
    through static children, and the `next === segments.length` leaf case.
    `none` models going on to the next sibling (`continue rte` on a literal
    mismatch, or falling off the end of the loop body). -/
def matchOne : Route → List String → Nat → Option (List RouteMatch)
  | .mk nid path comp fb err ch, segments, index =>
    let r : Route := .mk nid path comp fb err ch
    let ps := pathSegs r
    if ps.length > segments.length + index then some []
    else
      match matchSegs ps segments index [] with
      | none => none
      | some params =>
        let next := index + ps.length
        match ch with
        | .lazyFn _ | .lazyPromise _ =>
          if next ≤ segments.length then some [⟨r, params⟩]
          else if next = segments.length then some [⟨r, params⟩]
          else none
        | .rlist kids =>
          match kids with
          | .nil =>
            if next = segments.length then some [⟨r, params⟩]
            else none
          | .cons _ _ =>
            let child := matchRoutes kids segments next
            if child ≠ [] then some (⟨r, params⟩ :: child)
            else if next = segments.length then some [⟨r, params⟩]
            else none

/-- `match(routes, segments, index)` from src/prouter.js lines 431-469:
    try each route in declaration order, returning the first `return`ed
    result, `[]` when the loop exhausts the list. -/
def matchRoutes : Routes → List String → Nat → List RouteMatch
  | .nil, _, _ => []
  | .cons r rest, segments, index =>
    match matchOne r segments index with
    | some result => result
    | none => matchRoutes rest segments index
end

theorem Routes.strongRecOn {motive : Routes → Prop}
    (ih : ∀ rs, (∀ rs', sizeOf rs' < sizeOf rs → motive rs') → motive rs) :
    ∀ rs, motive rs := by
  have key : ∀ n rs, sizeOf rs ≤ n → motive rs := by
    intro n
    induction n with
    | zero =>
      intro rs h
      exact ih rs fun rs' h' => absurd (Nat.lt_of_lt_of_le h' h) (Nat.not_lt_zero _)
    | succ n ihn =>
      intro rs h
      exact ih rs fun rs' h' => ihn rs' (Nat.le_of_lt_succ (Nat.lt_of_lt_of_le h' h))
  exact fun rs => key (sizeOf rs) rs le_rfl

theorem sizeOf_kids_lt' (n : Nat) (p : Option String) (c : Nat) (f : Option Nat) (e : Bool)
    (kids : Routes) : sizeOf kids < sizeOf (Route.mk n p c f e (.rlist kids)) := by
  have h2 := Route.mk.sizeOf_spec n p c f e (Kids.rlist kids)
  have h3 := Kids.rlist.sizeOf_spec kids
  omega


theorem matchOne_mem_allNodes :
    ∀ r, (∀ kids : Routes, sizeOf kids < sizeOf r →
        ∀ segs idx m, m ∈ matchRoutes kids segs idx → m.route ∈ Routes.allNodes kids) →
      ∀ segs idx m res, matchOne r segs idx = some res → m ∈ res →
        m.route ∈ Route.allNodes r := by
  intro r ihm segs idx m res hres hm
  match r with
  | .mk n p c f e (.lazyFn l) =>
    rw [matchOne] at hres
    simp only at hres
    split at hres
    · simp_all
    · split at hres
      · simp at hres
      · split at hres
        · cases hres
          simp_all [Route.allNodes]
        · split at hres
          · cases hres
            simp_all [Route.allNodes]
          · simp at hres
  | .mk n p c f e (.lazyPromise l) =>
    rw [matchOne] at hres
    simp only at hres
    split at hres
    · simp_all
    · split at hres
      · simp at hres
      · split at hres
        · cases hres
          simp_all [Route.allNodes]
        · split at hres
          · cases hres
            simp_all [Route.allNodes]
          · simp at hres
  | .mk n p c f e (.rlist .nil) =>
    rw [matchOne] at hres
    simp only at hres
    split at hres
    · simp_all
    · split at hres
      · simp at hres
      · split at hres
        · cases hres
          simp_all [Route.allNodes]
        · simp at hres
  | .mk n p c f e (.rlist (.cons k ks)) =>
    rw [matchOne] at hres
    simp only at hres
    split at hres
    · simp_all
    · split at hres
      · simp at hres
      · split at hres
        · cases hres
          simp at hm
          rcases hm with hm | hm
          · simp [Route.allNodes, hm]
          · have := ihm (Routes.cons k ks) (sizeOf_kids_lt' ..) segs _ m hm
            simp [Route.allNodes, Kids.allNodes]
            tauto
        · split at hres
          · cases hres
            simp_all [Route.allNodes]
          · simp at hres

theorem matchRoutes_mem_allNodes :
    ∀ rs, ∀ segs idx m, m ∈ matchRoutes rs segs idx → m.route ∈ Routes.allNodes rs := by
  apply Routes.strongRecOn
  intro rs ih segs idx m hm
  match rs with
  | .nil => simp [matchRoutes] at hm
  | .cons r rest =>
    rw [matchRoutes] at hm
    cases hone : matchOne r segs idx with
    | some res =>
      rw [hone] at hm
      simp only at hm
      have hr := matchOne_mem_allNodes r
        (fun kids hk segs' idx' m' hm' => by
          have hlt : sizeOf kids < sizeOf (Routes.cons r rest) := by
            have := Routes.cons.sizeOf_spec r rest
            omega
          exact ih kids hlt segs' idx' m' hm')
        segs idx m res hone hm
      simp [Routes.allNodes]
      tauto
    | none =>
      rw [hone] at hm
      simp only at hm
      have hlt : sizeOf rest < sizeOf (Routes.cons r rest) := by
        have := Routes.cons.sizeOf_spec r rest
        omega
      have := ih rest hlt segs idx m hm
      simp [Routes.allNodes]
      tauto

def Kids.isLazy : Kids → Bool
  | .lazyFn _ => true
  | .lazyPromise _ => true
  | .rlist _ => false

/-- The statically known children of a node (empty while they are lazy). -/
def kidsList (r : Route) : List Route :=
  match r.children with
  | .rlist rs => rs.toList
  | _ => []

/-- `b` is a child of `a` in the route tree. -/
def childOf (a b : RouteMatch) : Prop := b.route ∈ kidsList a.route

/-- Total number of pattern sub-segments consumed across a chain. -/
def consumed (c : List RouteMatch) : Nat := (c.map (fun m => (pathSegs m.route).length)).sum

/-- The C6 chain invariant for a `match` result: either it is empty, or it is
    a path in the tree starting at one of the tried routes whose total
    consumption (on top of the start index) equals the URL length, unless the
    deepest node still has a lazy children capability. -/
def ChainInv (rs : Routes) (segs : List String) (idx : Nat) : Prop :=
  matchRoutes rs segs idx = [] ∨
    ((∃ m0 tl, matchRoutes rs segs idx = m0 :: tl ∧ m0.route ∈ Routes.toList rs) ∧
     List.Chain' childOf (matchRoutes rs segs idx) ∧
     (idx + consumed (matchRoutes rs segs idx) = segs.length ∨
      ∃ mL, (matchRoutes rs segs idx).getLast? = some mL ∧
        Kids.isLazy mL.route.children = true))

theorem matchOne_invariant :
    ∀ r, (∀ kids : Routes, sizeOf kids < sizeOf r → ∀ segs idx, ChainInv kids segs idx) →
      ∀ segs idx res, matchOne r segs idx = some res → res ≠ [] →
        (∃ ps tl, res = RouteMatch.mk r ps :: tl) ∧ List.Chain' childOf res ∧
          (idx + consumed res = segs.length ∨
            ∃ mL, res.getLast? = some mL ∧ Kids.isLazy mL.route.children = true) := by
  intro r ihm segs idx res hres hne
  match r with
  | .mk n p c f e (.lazyFn l) =>
    rw [matchOne] at hres
    simp only at hres
    split at hres
    · simp_all
    · split at hres
      · simp at hres
      · split at hres
        · cases hres
          refine ⟨⟨_, _, rfl⟩, by simp, Or.inr ?_⟩
          exact ⟨_, rfl, rfl⟩
        · split at hres
          · cases hres
            refine ⟨⟨_, _, rfl⟩, by simp, Or.inr ?_⟩
            exact ⟨_, rfl, rfl⟩
          · simp at hres
  | .mk n p c f e (.lazyPromise l) =>
    rw [matchOne] at hres
    simp only at hres
    split at hres
    · simp_all
    · split at hres
      · simp at hres
      · split at hres
        · cases hres
          refine ⟨⟨_, _, rfl⟩, by simp, Or.inr ?_⟩
          exact ⟨_, rfl, rfl⟩
        · split at hres
          · cases hres
            refine ⟨⟨_, _, rfl⟩, by simp, Or.inr ?_⟩
            exact ⟨_, rfl, rfl⟩
          · simp at hres
  | .mk n p c f e (.rlist .nil) =>
    rw [matchOne] at hres
    simp only at hres
    split at hres
    · simp_all
    · split at hres
      · simp at hres
      · split at hres
        · cases hres
          rename_i hlen
          refine ⟨⟨_, _, rfl⟩, by simp, Or.inl ?_⟩
          simpa [consumed] using hlen
        · simp at hres
  | .mk n p c f e (.rlist (.cons k ks)) =>
    rw [matchOne] at hres
    simp only at hres
    split at hres
    · simp_all
    · split at hres
      · simp at hres
      · split at hres
        · cases hres
          rename_i hchild
          have hinv := ihm (Routes.cons k ks) (sizeOf_kids_lt' ..) segs
            (idx + (pathSegs (Route.mk n p c f e (Kids.rlist (Routes.cons k ks)))).length)
          rcases hinv with hemp | ⟨⟨m0, tl, hmc, hm0⟩, hch, hcons⟩
          · exact absurd hemp hchild
          · refine ⟨⟨_, _, rfl⟩, ?_, ?_⟩
            · rw [hmc]
              refine List.Chain'.cons ?_ (hmc ▸ hch)
              simpa [childOf, kidsList, Route.children] using hm0
            · rcases hcons with hcons | ⟨mL, hL, hlazy⟩
              · refine Or.inl ?_
                simp only [consumed, List.map_cons, List.sum_cons] at hcons ⊢
                omega
              · refine Or.inr ⟨mL, ?_, hlazy⟩
                rw [hmc] at hL ⊢
                rw [List.getLast?_cons_cons]
                exact hL
        · split at hres
          · cases hres
            rename_i hlen
            refine ⟨⟨_, _, rfl⟩, by simp, Or.inl ?_⟩
            simpa [consumed] using hlen
          · simp at hres

theorem matchRoutes_invariant : ∀ rs segs idx, ChainInv rs segs idx := by
  apply Routes.strongRecOn (motive := fun rs => ∀ segs idx, ChainInv rs segs idx)
  intro rs ih segs idx
  match rs with
  | .nil => exact Or.inl (by rw [matchRoutes])
  | .cons r rest =>
    have hunf : matchRoutes (Routes.cons r rest) segs idx =
        match matchOne r segs idx with
        | some result => result
        | none => matchRoutes rest segs idx := by rw [matchRoutes]
    cases hone : matchOne r segs idx with
    | some res =>
      rw [hone] at hunf
      by_cases hres : res = []
      · exact Or.inl (by rw [hunf, hres])
      · have hko : ∀ kids : Routes, sizeOf kids < sizeOf r → ∀ segs' idx', ChainInv kids segs' idx' := by
          intro kids hk segs' idx'
          have hlt : sizeOf kids < sizeOf (Routes.cons r rest) := by
            have := Routes.cons.sizeOf_spec r rest
            omega
          exact ih kids hlt segs' idx'
        obtain ⟨⟨ps, tl, hshape⟩, hch, hcons⟩ := matchOne_invariant r hko segs idx res hone hres
        refine Or.inr ⟨⟨RouteMatch.mk r ps, tl, by rw [hunf, hshape], by simp [Routes.toList]⟩,
          by rw [hunf]; exact hch, ?_⟩
        rw [hunf]
        exact hcons
    | none =>
      rw [hone] at hunf
      have hlt : sizeOf rest < sizeOf (Routes.cons r rest) := by
        have := Routes.cons.sizeOf_spec r rest
        omega
      rcases ih rest hlt segs idx with hemp | ⟨⟨m0, tl, hmc, hm0⟩, hch, hcons⟩
      · exact Or.inl (by rw [hunf, hemp])
      · refine Or.inr ⟨⟨m0, tl, by rw [hunf, hmc], by simp [Routes.toList]; tauto⟩,
          by rw [hunf]; exact hch, ?_⟩
        rw [hunf]
        exact hcons

theorem matchOne_of_lt :
    ∀ r, (∀ kids : Routes, sizeOf kids < sizeOf r →
        ∀ segs idx, segs.length < idx → matchRoutes kids segs idx = []) →
      ∀ segs idx, segs.length < idx →
        matchOne r segs idx = some [] ∨ matchOne r segs idx = none := by
  intro r ihm segs idx hlt
  match r with
  | .mk n p c f e (.lazyFn l) =>
    rw [matchOne]
    simp only
    split
    · exact Or.inl rfl
    · split
      · exact Or.inr rfl
      · rw [if_neg (by omega), if_neg (by omega)]
        exact Or.inr rfl
  | .mk n p c f e (.lazyPromise l) =>
    rw [matchOne]
    simp only
    split
    · exact Or.inl rfl
    · split
      · exact Or.inr rfl
      · rw [if_neg (by omega), if_neg (by omega)]
        exact Or.inr rfl
  | .mk n p c f e (.rlist .nil) =>
    rw [matchOne]
    simp only
    split
    · exact Or.inl rfl
    · split
      · exact Or.inr rfl
      · rw [if_neg (by omega)]
        exact Or.inr rfl
  | .mk n p c f e (.rlist (.cons k ks)) =>
    rw [matchOne]
    simp only
    split
    · exact Or.inl rfl
    · split
      · exact Or.inr rfl
      · have hemp := ihm (Routes.cons k ks) (sizeOf_kids_lt' ..) segs
          (idx + (pathSegs (Route.mk n p c f e (Kids.rlist (Routes.cons k ks)))).length)
          (by omega)
        rw [if_neg (by simpa using hemp), if_neg (by omega)]
        exact Or.inr rfl

/-- When the start index is already past the end of the URL segments, no
    route can complete a match: every branch falls through or returns the
    guard's empty result. -/
theorem matchRoutes_empty_of_lt :
    ∀ rs segs idx, segs.length < idx → matchRoutes rs segs idx = [] := by
  apply Routes.strongRecOn
    (motive := fun rs => ∀ segs idx, segs.length < idx → matchRoutes rs segs idx = [])
  intro rs ih segs idx hlt
  match rs with
  | .nil => rw [matchRoutes]
  | .cons r rest =>
    have hko : ∀ kids : Routes, sizeOf kids < sizeOf r →
        ∀ segs' idx', segs'.length < idx' → matchRoutes kids segs' idx' = [] := by
      intro kids hk segs' idx' hlt'
      have hlt2 : sizeOf kids < sizeOf (Routes.cons r rest) := by
        have := Routes.cons.sizeOf_spec r rest
        omega
      exact ih kids hlt2 segs' idx' hlt'
    have hrest : sizeOf rest < sizeOf (Routes.cons r rest) := by
      have := Routes.cons.sizeOf_spec r rest
      omega
    rcases matchOne_of_lt r hko segs idx hlt with hone | hone
    · rw [matchRoutes, hone]
    · rw [matchRoutes, hone]
      exact ih rest hrest segs idx hlt

/-- The guard at src/prouter.js line 437 fires exactly on
    `pathSegments.length > segments.length + index` and then `return`s `[]`. -/
theorem matchOne_guard (r : Route) (segs : List String) (idx : Nat)
    (h : (pathSegs r).length > segs.length + idx) : matchOne r segs idx = some [] := by
  cases r with
  | mk n p c f e ch =>
    rw [matchOne]
    simp only
    rw [if_pos h]

/-- A route whose pattern exceeds the remaining URL segments while staying
    inside the guard window fails without `return`ing: the matcher falls
    through to the next sibling. -/
theorem matchOne_overlong (r : Route) (segs : List String) (idx : Nat)
    (hover : idx + (pathSegs r).length > segs.length)
    (hguard : (pathSegs r).length ≤ segs.length + idx) : matchOne r segs idx = none := by
  match r with
  | .mk n p c f e (.lazyFn l) =>
    rw [matchOne]
    simp only
    rw [if_neg (by omega)]
    split
    · rfl
    · rw [if_neg (by omega), if_neg (by omega)]
  | .mk n p c f e (.lazyPromise l) =>
    rw [matchOne]
    simp only
    rw [if_neg (by omega)]
    split
    · rfl
    · rw [if_neg (by omega), if_neg (by omega)]
  | .mk n p c f e (.rlist .nil) =>
    rw [matchOne]
    simp only
    rw [if_neg (by omega)]
    split
    · rfl
    · rw [if_neg (by omega)]
  | .mk n p c f e (.rlist (.cons k ks)) =>
    rw [matchOne]
    simp only
    rw [if_neg (by omega)]
    split
    · rfl
    · have hemp := matchRoutes_empty_of_lt (Routes.cons k ks) segs
        (idx + (pathSegs (Route.mk n p c f e (Kids.rlist (Routes.cons k ks)))).length)
        (by omega)
      rw [if_neg (by simpa using hemp), if_neg (by omega)]

theorem matchRoutes_cons_of_matchOne_some (r : Route) (rest : Routes) (segs : List String)
    (idx : Nat) (res : List RouteMatch) (h : matchOne r segs idx = some res) :
    matchRoutes (.cons r rest) segs idx = res := by
  rw [matchRoutes, h]

theorem matchRoutes_cons_of_matchOne_none (r : Route) (rest : Routes) (segs : List String)
    (idx : Nat) (h : matchOne r segs idx = none) :
    matchRoutes (.cons r rest) segs idx = matchRoutes rest segs idx := by
  rw [matchRoutes, h]

theorem matchRoutes_single_nonempty (A : Route) (segs : List String) (idx : Nat)
    (h : matchRoutes (.cons A .nil) segs idx ≠ []) :
    ∃ res, matchOne A segs idx = some res ∧ res ≠ [] := by
  cases hone : matchOne A segs idx with
  | none =>
    rw [matchRoutes_cons_of_matchOne_none _ _ _ _ hone, matchRoutes] at h
    exact absurd rfl h
  | some res =>
    exact ⟨res, rfl, by rwa [matchRoutes_cons_of_matchOne_some _ _ _ _ _ hone] at h⟩


/- ## Claim C1: the over-long-pattern guard -/

/-- `route("a/b", ...)`: a sibling whose pattern has two sub-segments. -/
def cexLong : Route := .mk 11 (some "a/b") 70 none false (.rlist .nil)

/-- `route("x", ...)`: a later sibling that matches the URL `/x` on its own. -/
def cexX : Route := .mk 12 (some "x") 80 none false (.rlist .nil)

/-- C1 is false on the code: with siblings `[route("a/b"), route("x")]` and
    URL segments `["x"]`, the first route's pattern has more sub-segments (2)
    than the remaining URL segments (1), and instead of moving on to the next
    sibling, `match` returns `[]` outright — the later sibling `route("x")`,
    which matches on its own, never produces a chain. -/
theorem c1_counterexample :
    matchRoutes (.cons cexLong (.cons cexX .nil)) ["x"] 0 = [] ∧
      matchRoutes (.cons cexX .nil) ["x"] 0 = [⟨cexX, []⟩] := by
  decide

/-- C1 amended: when a node's sub-segment count exceeds
    `segments.length + index` (note: plus, not minus), `match` returns the
    empty chain immediately and later siblings are never tried; when the
    sub-segment count merely exceeds the remaining segments
    (`segments.length - index`) while staying inside that guard window, the
    node fails and the matcher does go on to the next sibling. -/
theorem c1_amended_guard_behavior (r : Route) (rest : Routes) (segs : List String) (idx : Nat) :
    ((pathSegs r).length > segs.length + idx →
      matchRoutes (.cons r rest) segs idx = []) ∧
    (idx + (pathSegs r).length > segs.length → (pathSegs r).length ≤ segs.length + idx →
      matchRoutes (.cons r rest) segs idx = matchRoutes rest segs idx) := by
  constructor
  · intro h
    rw [matchRoutes_cons_of_matchOne_some _ _ _ _ _ (matchOne_guard r segs idx h)]
  · intro hover hguard
    exact matchRoutes_cons_of_matchOne_none _ _ _ _ (matchOne_overlong r segs idx hover hguard)

/-- `route("x/y", ...)`: pattern of two sub-segments, used with start
    index 1 against two URL segments: the pattern overshoots the remaining
    segment but stays inside the guard window. -/
def cexXY : Route := .mk 13 (some "x/y") 71 none false (.rlist .nil)

/-- Witness for `c1_amended_guard_behavior` at concrete inputs: the guard
    branch on `[route("a/b"), route("x")]` with `["x"]`, and the
    fall-through branch on `[route("x/y"), route("x")]` with `["q", "x"]`
    at start index 1. -/
theorem c1_amended_guard_behavior_witness :
    matchRoutes (.cons cexLong (.cons cexX .nil)) ["x"] 0 = [] ∧
      matchRoutes (.cons cexXY (.cons cexX .nil)) ["q", "x"] 1 =
        matchRoutes (.cons cexX .nil) ["q", "x"] 1 :=
  ⟨(c1_amended_guard_behavior cexLong (.cons cexX .nil) ["x"] 0).1 (by decide),
    (c1_amended_guard_behavior cexXY (.cons cexX .nil) ["q", "x"] 1).2 (by decide) (by decide)⟩

/- ## Claim C5: the lazy boundary short-circuit -/

/-- C5: when `match` examines a node whose `children` are a lazy capability
    (a loader function or an in-flight promise) and the node's own
    sub-segments matched, it returns a chain containing only that node's
    match, provided the consumed count `next = index + pathSegments.length`
    does not exceed the total number of URL segments — however many URL
    segments remain unconsumed. -/
theorem c5_lazy_boundary (n : Nat) (p : Option String) (c : Nat) (f : Option Nat) (e : Bool)
    (ch : Kids) (rest : Routes) (segs : List String) (idx : Nat)
    (params : List (String × String))
    (hlazy : Kids.isLazy ch = true)
    (hsegs : matchSegs (pathSegs (.mk n p c f e ch)) segs idx [] = some params)
    (hnext : idx + (pathSegs (.mk n p c f e ch)).length ≤ segs.length) :
    matchRoutes (.cons (.mk n p c f e ch) rest) segs idx =
      [⟨.mk n p c f e ch, params⟩] := by
  apply matchRoutes_cons_of_matchOne_some
  match ch, hlazy with
  | .lazyFn l, _ =>
    rw [matchOne]
    simp only
    rw [if_neg (by omega), hsegs]
    simp only
    rw [if_pos hnext]
  | .lazyPromise l, _ =>
    rw [matchOne]
    simp only
    rw [if_neg (by omega), hsegs]
    simp only
    rw [if_pos hnext]

/-- `route("settings", {loader})` with three URL segments left over. -/
def cexLazy : Route := .mk 21 (some "settings") 60 none false (.lazyFn 7)

/-- Witness for `c5_lazy_boundary`: `/settings/profile/deep/deeper` stops at
    the lazy `settings` node with three unconsumed segments. -/
theorem c5_lazy_boundary_witness :
    matchRoutes (.cons cexLazy .nil) ["settings", "profile", "deep", "deeper"] 0 =
      [⟨cexLazy, []⟩] :=
  c5_lazy_boundary 21 (some "settings") 60 none false (.lazyFn 7) .nil
    ["settings", "profile", "deep", "deeper"] 0 [] (by decide) (by decide) (by decide)

/- ## Claim C6: the chain invariant -/

/-- C6: every non-empty chain produced by `match` at start index 0 is a path
    in the tree (each match's node is a child of the previous match's node),
    and either the total number of pattern sub-segments consumed across the
    chain equals the number of URL segments, or the deepest node of the
    chain still has a lazy children capability. -/
theorem c6_chain_invariant (rs : Routes) (segs : List String)
    (hne : matchRoutes rs segs 0 ≠ []) :
    List.Chain' childOf (matchRoutes rs segs 0) ∧
      (consumed (matchRoutes rs segs 0) = segs.length ∨
        ∃ mL, (matchRoutes rs segs 0).getLast? = some mL ∧
          Kids.isLazy mL.route.children = true) := by
  rcases matchRoutes_invariant rs segs 0 with hemp | ⟨_, hch, hcons⟩
  · exact absurd hemp hne
  · exact ⟨hch, by simpa using hcons⟩

/-- The nested tree `layout(Shell, [route("posts", Posts, [route(":id")])])`. -/
def wParam : Route := .mk 34 (some ":id") 40 none false (.rlist .nil)
def wPosts : Route := .mk 35 (some "posts") 50 none false (.rlist (.cons wParam .nil))
def wRoot : Route := .mk 31 none 10 none false (.rlist (.cons wPosts .nil))

/-- Witness for `c6_chain_invariant` on `/posts/42` against the nested tree. -/
theorem c6_chain_invariant_witness :
    List.Chain' childOf (matchRoutes (.cons wRoot .nil) ["posts", "42"] 0) ∧
      (consumed (matchRoutes (.cons wRoot .nil) ["posts", "42"] 0) = 2 ∨
        ∃ mL, (matchRoutes (.cons wRoot .nil) ["posts", "42"] 0).getLast? = some mL ∧
          Kids.isLazy mL.route.children = true) :=
  c6_chain_invariant (.cons wRoot .nil) ["posts", "42"] (by decide)

/- ## Claim C7: first declared sibling wins -/

/-- C7: if siblings `A` (declared first) and `B` are each individually
    capable of matching the URL segments at the start index, the chain goes
    through `A`: the result equals the result of matching `A` alone, its
    head is `A`, and `B` (not being a node of `A`'s subtree) appears nowhere
    in the chain. -/
theorem c7_first_match_wins (A B : Route) (rest : Routes) (segs : List String) (idx : Nat)
    (hA : matchRoutes (.cons A .nil) segs idx ≠ [])
    (hB : matchRoutes (.cons B .nil) segs idx ≠ [])
    (hpos : B ∈ Routes.toList rest)
    (hsub : B ∉ Route.allNodes A) :
    matchRoutes (.cons A rest) segs idx = matchRoutes (.cons A .nil) segs idx ∧
      (∃ ps tl, matchRoutes (.cons A rest) segs idx = ⟨A, ps⟩ :: tl) ∧
      ∀ m ∈ matchRoutes (.cons A rest) segs idx, m.route ≠ B := by
  obtain ⟨res, hone, hres⟩ := matchRoutes_single_nonempty A segs idx hA
  have hcons := matchRoutes_cons_of_matchOne_some A rest segs idx res hone
  have hsingle := matchRoutes_cons_of_matchOne_some A .nil segs idx res hone
  have hko : ∀ kids : Routes, sizeOf kids < sizeOf A → ∀ s i, ChainInv kids s i :=
    fun kids _ s i => matchRoutes_invariant kids s i
  obtain ⟨⟨ps, tl, hshape⟩, _, _⟩ := matchOne_invariant A hko segs idx res hone hres
  refine ⟨by rw [hcons, hsingle], ⟨ps, tl, by rw [hcons, hshape]⟩, ?_⟩
  intro m hm heq
  have hmem : m.route ∈ Routes.allNodes (.cons A .nil) := by
    apply matchRoutes_mem_allNodes (.cons A .nil) segs idx m
    rw [hsingle, ← hcons]
    exact hm
  rw [heq] at hmem
  simp [Routes.allNodes] at hmem
  exact hsub hmem

/-- `route("dup", H1)` and `route("dup", H2)`: two siblings both capable of
    matching `/dup`; only declaration order separates them. -/
def wDupA : Route := .mk 41 (some "dup") 91 none false (.rlist .nil)
def wDupB : Route := .mk 42 (some "dup") 92 none false (.rlist .nil)

/-- Witness for `c7_first_match_wins` on the `dup`/`dup` sibling pair. -/
theorem c7_first_match_wins_witness :
    matchRoutes (.cons wDupA (.cons wDupB .nil)) ["dup"] 0 =
        matchRoutes (.cons wDupA .nil) ["dup"] 0 ∧
      (∃ ps tl, matchRoutes (.cons wDupA (.cons wDupB .nil)) ["dup"] 0 = ⟨wDupA, ps⟩ :: tl) ∧
      ∀ m ∈ matchRoutes (.cons wDupA (.cons wDupB .nil)) ["dup"] 0, m.route ≠ wDupB :=
  c7_first_match_wins wDupA wDupB (.cons wDupB .nil) ["dup"] 0
    (by decide) (by decide) (by decide) (by decide)

/- ## Claim C8: root-to-leaf params merge, and Claim C9: navigate -/

/-- `Object.assign(target, source)` over string-keyed records: write each of
    the source's properties into the target, in order. -/
def massign (target source : List (String × String)) : List (String × String) :=
  source.foldl (fun acc kv => pset acc kv.1 kv.2) target

/-- The root-to-leaf params merge of `Router.render` (src/prouter.js lines
    351-353): `const params = {}; for (const m of matches)
    Object.assign(params, m.params)`. -/
def mergeParams (ms : List RouteMatch) : List (String × String) :=
  ms.foldl (fun acc m => massign acc m.params) []

/-- The value that the deepest (closest-to-leaf) node defining key `k` gives
    it, scanning the chain root to leaf. -/
def lastValue (ms : List RouteMatch) (k : String) : Option String :=
  ms.foldl (fun acc m =>
    match List.lookup k m.params with
    | some v => some v
    | none => acc) none

theorem lookup_eq_none_of_not_mem_keys (k : String) (ps : List (String × String))
    (h : k ∉ ps.map Prod.fst) : List.lookup k ps = none := by
  induction ps with
  | nil => rfl
  | cons kv rest ih =>
    obtain ⟨a, b⟩ := kv
    simp only [List.map_cons, List.mem_cons] at h
    push_neg at h
    have hka : (k == a) = false := beq_eq_false_iff_ne.mpr h.1
    simp [List.lookup, hka, ih h.2]

theorem lookup_pset (ps : List (String × String)) (k k' v : String) :
    List.lookup k (pset ps k' v) = if k = k' then some v else List.lookup k ps := by
  induction ps with
  | nil =>
    by_cases h : k = k'
    · simp [pset, List.lookup, beq_iff_eq, h]
    · have hk : (k == k') = false := beq_eq_false_iff_ne.mpr h
      simp [pset, List.lookup, hk, h]
  | cons kv rest ih =>
    obtain ⟨a, b⟩ := kv
    by_cases h1 : a = k'
    · subst h1
      by_cases h2 : k = a
      · simp [pset, List.lookup, beq_iff_eq, h2]
      · have hk : (k == a) = false := beq_eq_false_iff_ne.mpr h2
        simp [pset, List.lookup, hk, h2]
    · by_cases h2 : k = a
      · subst h2
        have hk : (k == k) = true := beq_iff_eq.mpr rfl
        have hne : ¬k = k' := fun hc => h1 (hc ▸ rfl)
        simp [pset, List.lookup, hk, h1, hne]
      · have hk : (k == a) = false := beq_eq_false_iff_ne.mpr h2
        simp [pset, List.lookup, hk, h1, ih]

theorem lookup_massign (src : List (String × String)) (k : String)
    (hnd : (src.map Prod.fst).Nodup) :
    ∀ t, List.lookup k (massign t src) =
      match List.lookup k src with
      | some v => some v
      | none => List.lookup k t := by
  induction src with
  | nil => intro t; simp [massign, List.lookup]
  | cons kv rest ih =>
    intro t
    obtain ⟨a, b⟩ := kv
    simp only [List.map_cons, List.nodup_cons] at hnd
    have hmk : massign t ((a, b) :: rest) = massign (pset t a b) rest := by
      simp [massign]
    rw [hmk, ih hnd.2 (pset t a b)]
    by_cases h : k = a
    · subst h
      have hr : List.lookup k rest = none :=
        lookup_eq_none_of_not_mem_keys k rest hnd.1
      have hk : (k == k) = true := beq_iff_eq.mpr rfl
      simp [List.lookup, hk, hr, lookup_pset]
    · have hk : (k == a) = false := beq_eq_false_iff_ne.mpr h
      simp [List.lookup, hk, lookup_pset, h]

theorem lookup_mergeParams_foldl (chain : List RouteMatch) (k : String)
    (hnd : ∀ m ∈ chain, (m.params.map Prod.fst).Nodup) :
    ∀ t, List.lookup k (chain.foldl (fun acc m => massign acc m.params) t) =
      (chain.foldl (fun acc m =>
        match List.lookup k m.params with
        | some v => some v
        | none => acc) (List.lookup k t)) := by
  induction chain with
  | nil => intro t; simp
  | cons m rest ih =>
    intro t
    simp only [List.foldl_cons]
    rw [ih (fun m' hm' => hnd m' (List.mem_cons_of_mem _ hm')),
      lookup_massign m.params k (hnd m (List.mem_cons_self _ _)) t]

/-- C8: merging the per-node params of a chain root to leaf gives, for every
    key, the value captured by the deepest node that defines it — a later
    node's value overwrites an ancestor's value for the same key.  (Each
    node's own params record has duplicate-free keys, as JS objects must.) -/
theorem c8_params_merge_deepest_wins (chain : List RouteMatch) (k : String)
    (hnd : ∀ m ∈ chain, (m.params.map Prod.fst).Nodup) :
    List.lookup k (mergeParams chain) = lastValue chain k := by
  rw [mergeParams, lastValue, lookup_mergeParams_foldl chain k hnd []]
  rfl

/-- An ancestor match capturing `id := "a"`. -/
def wMergeA : RouteMatch := ⟨.mk 51 (some ":id") 90 none false (.rlist .nil), [("id", "a")]⟩
/-- A descendant match recapturing `id := "b"`. -/
def wMergeB : RouteMatch := ⟨.mk 52 (some ":id") 91 none false (.rlist .nil), [("id", "b")]⟩

/-- Witness for `c8_params_merge_deepest_wins`: on the chain `[A, B]` where
    both define `id`, the merged record holds `B`'s value `"b"`. -/
theorem c8_params_merge_deepest_wins_witness :
    List.lookup "id" (mergeParams [wMergeA, wMergeB]) = lastValue [wMergeA, wMergeB] "id" ∧
      List.lookup "id" (mergeParams [wMergeA, wMergeB]) = some "b" :=
  ⟨c8_params_merge_deepest_wins [wMergeA, wMergeB] "id" (by decide), by decide⟩

/-- Observable events of one `navigate` call: the write to the pluggable
    source and each subscriber's `forceUpdate`. -/
inductive NavEvent : Type where
  | wrote (url : String) (replace : Bool)
  | forceUpdate (sub : Nat)
deriving DecidableEq

/-- The history stack seen by the `pathname` source: the head is the current
    entry; `history.replaceState` swaps it, `history.pushState` pushes a new
    one. -/
def histWrite (entries : List String) (url : String) (replace : Bool) : List String :=
  if replace then url :: entries.drop 1 else url :: entries

/-- The navigation store: the source's history and the `subscribers` set
    (insertion-ordered and duplicate-free, as a JS `Set`). -/
structure NavState : Type where
  hist : List String
  subs : List Nat
deriving DecidableEq

/-- `notify()` (src/prouter.js lines 146-148):
    `for (const c of subscribers) c.forceUpdate()`. -/
def notifyEvents (st : NavState) : List NavEvent := st.subs.map NavEvent.forceUpdate

/-- `navigate(to, options)` (src/prouter.js lines 190-193):
    `source.write(to, options?.replace)` followed by `notify()`, returning
    the new state and the emitted events in order. -/
def navigate (st : NavState) (url : String) (replace : Bool) : NavState × List NavEvent :=
  (⟨histWrite st.hist url replace, st.subs⟩, NavEvent.wrote url replace :: notifyEvents st)

/-- C9: `navigate(to, {replace?})` first writes `to` to the source — as a
    replacing write exactly when the flag is set, as a new history entry
    otherwise — and then synchronously invokes every currently registered
    subscriber exactly once; unregistered subscribers are not invoked; the
    subscriber set itself is unchanged. -/
theorem c9_navigate_writes_then_notifies (st : NavState) (url : String) (replace : Bool)
    (hnd : st.subs.Nodup) :
    (navigate st url replace).2.head? = some (NavEvent.wrote url replace) ∧
      (navigate st url replace).1.hist.head? = some url ∧
      (replace = false → (navigate st url replace).1.hist = url :: st.hist) ∧
      (replace = true → (navigate st url replace).1.hist = url :: st.hist.drop 1) ∧
      (∀ s ∈ st.subs, (navigate st url replace).2.count (NavEvent.forceUpdate s) = 1) ∧
      (∀ s, s ∉ st.subs → (navigate st url replace).2.count (NavEvent.forceUpdate s) = 0) ∧
      (navigate st url replace).1.subs = st.subs := by
  have hinj : Function.Injective NavEvent.forceUpdate := by
    intro a b hab
    cases hab
    rfl
  refine ⟨rfl, ?_, ?_, ?_, ?_, ?_, rfl⟩
  · cases replace <;> simp [navigate, histWrite]
  · intro h
    simp [navigate, histWrite, h]
  · intro h
    simp [navigate, histWrite, h]
  · intro s hs
    simp only [navigate, notifyEvents, List.count_cons]
    rw [List.count_map_of_injective _ _ hinj]
    simp [List.count_eq_one_of_mem hnd hs]
  · intro s hs
    simp only [navigate, notifyEvents, List.count_cons]
    rw [List.count_map_of_injective _ _ hinj]
    simp [List.count_eq_zero_of_not_mem hs]

/-- Witness for `c9_navigate_writes_then_notifies`: subscribers `3` and `5`,
    a replacing navigation to `/about`. -/
theorem c9_navigate_writes_then_notifies_witness :
    (navigate ⟨["/"], [3, 5]⟩ "/about" true).2.head? =
        some (NavEvent.wrote "/about" true) ∧
      (navigate ⟨["/"], [3, 5]⟩ "/about" true).1.hist.head? = some "/about" ∧
      (true = false → (navigate ⟨["/"], [3, 5]⟩ "/about" true).1.hist = "/about" :: ["/"]) ∧
      (true = true →
        (navigate ⟨["/"], [3, 5]⟩ "/about" true).1.hist = "/about" :: (["/"].drop 1)) ∧
      (∀ s ∈ [3, 5], (navigate ⟨["/"], [3, 5]⟩ "/about" true).2.count
        (NavEvent.forceUpdate s) = 1) ∧
      (∀ s, s ∉ [3, 5] → (navigate ⟨["/"], [3, 5]⟩ "/about" true).2.count
        (NavEvent.forceUpdate s) = 0) ∧
      (navigate ⟨["/"], [3, 5]⟩ "/about" true).1.subs = [3, 5] :=
  c9_navigate_writes_then_notifies ⟨["/"], [3, 5]⟩ "/about" true (by decide)


/- ## Claim C10: match mutates neither route nodes nor the segments array -/

/-- A route node as a mutable heap record: statically known children are a
    JS array of references to other nodes; a lazy capability is
    `inl (isPromise, loader)`. -/
structure HNode : Type where
  path : Option String
  component : Nat
  fallback : Option Nat
  err : Bool
  children : (Bool × Nat) ⊕ List Nat
deriving DecidableEq

/-- The mutable heap: route-node records, string arrays (the segments array
    lives here), params objects, and an allocation counter. -/
structure Heap : Type where
  nodes : Nat → Option HNode
  arrays : Nat → Option (List String)
  objs : Nat → Option (List (String × String))
  fresh : Nat

/-- Heap write to a params object. -/
def Heap.setObj (σ : Heap) (ref : Nat) (v : List (String × String)) : Heap :=
  {σ with objs := fun j => if j = ref then some v else σ.objs j}

/-- The segment loop of `match` against the heap:
    `params[pathSeg.slice(1)] = urlSeg ?? ""` writes into the heap-allocated
    params object `pref`; a literal mismatch aborts with `false`, leaving the
    partially written object behind. -/
def matchSegsH : List String → List String → Nat → Nat → Heap → Heap × Bool
  | [], _, _, _, σ => (σ, true)
  | pseg :: rest, segments, i, pref, σ =>
    if startsColon pseg then
      matchSegsH rest segments (i + 1) pref
        (σ.setObj pref
          (pset ((σ.objs pref).getD []) (strTail pseg) ((segments.get? i).getD "")))
    else if segments.get? i = some pseg then
      matchSegsH rest segments (i + 1) pref σ
    else (σ, false)

/-- `match` translated against the explicit heap: route nodes and the
    segments array are read through references, and the per-route `params`
    object is allocated in the heap (`const params = {}`) and mutated by the
    segment loop.  `fuel` bounds the recursion depth (the JS recursion is
    unbounded on cyclic object graphs).  Returns the final heap and the
    chain as (node reference, params reference) pairs. -/
def matchH : Nat → List Nat → Nat → Nat → Heap → Heap × List (Nat × Nat)
  | 0, _, _, _, σ => (σ, [])
  | _ + 1, [], _, _, σ => (σ, [])
  | fuel + 1, ref :: rest, segsRef, index, σ =>
    match σ.nodes ref with
    | none => (σ, [])
    | some nd =>
      let segments := (σ.arrays segsRef).getD []
      let ps := segsOfPath nd.path
      if ps.length > segments.length + index then (σ, [])
      else
        let pref := σ.fresh
        let σ1 : Heap :=
          ⟨σ.nodes, σ.arrays, fun j => if j = pref then some [] else σ.objs j, pref + 1⟩
        match matchSegsH ps segments index pref σ1 with
        | (σ2, false) => matchH fuel rest segsRef index σ2
        | (σ2, true) =>
          let next := index + ps.length
          match nd.children with
          | .inl _ =>
            if next ≤ segments.length then (σ2, [(ref, pref)])
            else if next = segments.length then (σ2, [(ref, pref)])
            else matchH fuel rest segsRef index σ2
          | .inr kidRefs =>
            if kidRefs.length ≠ 0 then
              match matchH fuel kidRefs segsRef next σ2 with
              | (σ3, child) =>
                if child ≠ [] then (σ3, (ref, pref) :: child)
                else if next = segments.length then (σ3, [(ref, pref)])
                else matchH fuel rest segsRef index σ3
            else
              if next = segments.length then (σ2, [(ref, pref)])
              else matchH fuel rest segsRef index σ2

/-- The segment loop only writes params objects: route nodes and arrays are
    untouched. -/
theorem matchSegsH_frame : ∀ ps segments i pref σ,
    (matchSegsH ps segments i pref σ).1.nodes = σ.nodes ∧
      (matchSegsH ps segments i pref σ).1.arrays = σ.arrays := by
  intro ps
  induction ps with
  | nil => intro segments i pref σ; exact ⟨rfl, rfl⟩
  | cons pseg rest ih =>
    intro segments i pref σ
    rw [matchSegsH]
    split
    · exact ih segments (i + 1) pref _
    · split
      · exact ih segments (i + 1) pref σ
      · exact ⟨rfl, rfl⟩

/-- C10: `match` is pure with respect to the route tree and the URL: in the
    heap-instrumented translation, for every fuel, every route-reference
    list, every segments-array reference, every start index and every
    initial heap, the final heap has the same route nodes (no field of any
    route node is written) and the same arrays (the segments array is not
    written).  Only fresh params objects are allocated and written. -/
theorem c10_match_mutates_no_route_node : ∀ fuel refs segsRef index σ,
    (matchH fuel refs segsRef index σ).1.nodes = σ.nodes ∧
      (matchH fuel refs segsRef index σ).1.arrays = σ.arrays := by
  intro fuel
  induction fuel with
  | zero => intro refs segsRef index σ; exact ⟨rfl, rfl⟩
  | succ fuel ih =>
    intro refs segsRef index σ
    match refs with
    | [] => exact ⟨rfl, rfl⟩
    | ref :: rest =>
      rw [matchH]
      cases hnd : σ.nodes ref with
      | none => exact ⟨rfl, rfl⟩
      | some nd =>
        simp only
        split
        · exact ⟨rfl, rfl⟩
        · have hσ1 : ∀ v,
              (Heap.mk σ.nodes σ.arrays v (σ.fresh + 1)).nodes = σ.nodes := fun _ => rfl
          split
          · rename_i σ2 hms
            have hf := matchSegsH_frame (segsOfPath nd.path) ((σ.arrays segsRef).getD [])
              index σ.fresh
              ⟨σ.nodes, σ.arrays, fun j => if j = σ.fresh then some [] else σ.objs j,
                σ.fresh + 1⟩
            rw [hms] at hf
            have hrec := ih rest segsRef index σ2
            exact ⟨hrec.1.trans hf.1, hrec.2.trans hf.2⟩
          · rename_i σ2 hms
            have hf := matchSegsH_frame (segsOfPath nd.path) ((σ.arrays segsRef).getD [])
              index σ.fresh
              ⟨σ.nodes, σ.arrays, fun j => if j = σ.fresh then some [] else σ.objs j,
                σ.fresh + 1⟩
            rw [hms] at hf
            split
            · split
              · exact hf
              · split
                · exact hf
                · have hrec := ih rest segsRef index σ2
                  exact ⟨hrec.1.trans hf.1, hrec.2.trans hf.2⟩
            · rename_i kidRefs hksum
              split
              · have hk := ih kidRefs segsRef (index + (segsOfPath nd.path).length) σ2
                split
                · exact ⟨hk.1.trans hf.1, hk.2.trans hf.2⟩
                · split
                  · exact ⟨hk.1.trans hf.1, hk.2.trans hf.2⟩
                  · have hrec := ih rest segsRef index
                      (matchH fuel kidRefs segsRef
                        (index + (segsOfPath nd.path).length) σ2).1
                    exact ⟨(hrec.1.trans hk.1).trans hf.1, (hrec.2.trans hk.2).trans hf.2⟩
              · split
                · exact hf
                · have hrec := ih rest segsRef index σ2
                  exact ⟨hrec.1.trans hf.1, hrec.2.trans hf.2⟩


mutual
def setKidsR (t : Nat) (c : Kids) : Route → Route
  | .mk n p cp f e ch =>
    if n = t then .mk n p cp f e c else .mk n p cp f e (setKidsK t c ch)
def setKidsK (t : Nat) (c : Kids) : Kids → Kids
  | .lazyFn l => .lazyFn l
  | .lazyPromise l => .lazyPromise l
  | .rlist rs => .rlist (setKidsRs t c rs)
def setKidsRs (t : Nat) (c : Kids) : Routes → Routes
  | .nil => .nil
  | .cons r rs => .cons (setKidsR t c r) (setKidsRs t c rs)
end

mutual
def setErrR (t : Nat) : Route → Route
  | .mk n p cp f e ch =>
    if n = t then .mk n p cp f true ch else .mk n p cp f e (setErrK t ch)
def setErrK (t : Nat) : Kids → Kids
  | .lazyFn l => .lazyFn l
  | .lazyPromise l => .lazyPromise l
  | .rlist rs => .rlist (setErrRs t rs)
def setErrRs (t : Nat) : Routes → Routes
  | .nil => .nil
  | .cons r rs => .cons (setErrR t r) (setErrRs t rs)
end

inductive TaskCfg : Type where
  | notStarted
  | waiting (nid loader : Nat)
  | finished
deriving DecidableEq

structure Sys : Type where
  tree : Route
  segs : List String
  count : Nat → Nat
  t1 : TaskCfg
  t2 : TaskCfg

def Sys.cfg (s : Sys) (k : Bool) : TaskCfg := if k then s.t1 else s.t2

def Sys.setCfg (s : Sys) (k : Bool) (c : TaskCfg) : Sys :=
  if k then ⟨s.tree, s.segs, s.count, c, s.t2⟩ else ⟨s.tree, s.segs, s.count, s.t1, c⟩

def block1 (tree : Route) (segs : List String) : Option (Nat × Nat) × Route :=
  match (matchRoutes (.cons tree .nil) segs 0).getLast? with
  | none => (none, tree)
  | some m =>
    match m.route.children with
    | .lazyFn l => (some (m.route.nid, l), setKidsR m.route.nid (.lazyPromise l) tree)
    | _ => (none, tree)

def applyBlock1 (s : Sys) (k : Bool) : Sys :=
  match block1 s.tree s.segs with
  | (none, t) => Sys.setCfg ⟨t, s.segs, s.count, s.t1, s.t2⟩ k .finished
  | (some (nid, l), t) =>
    Sys.setCfg ⟨t, s.segs, fun j => if j = l then s.count j + 1 else s.count j, s.t1, s.t2⟩
      k (.waiting nid l)

inductive Outcome : Type where
  | ok (kids : Routes)
  | fail
deriving DecidableEq

inductive Label : Type where
  | start (k : Bool)
  | settle (k : Bool) (out : Outcome)
deriving DecidableEq

def stepL (s : Sys) : Label → Option Sys
  | .start k =>
    match Sys.cfg s k with
    | .notStarted => some (applyBlock1 s k)
    | _ => none
  | .settle k out =>
    match Sys.cfg s k with
    | .waiting nid l =>
      match out with
      | .ok kids =>
        some (applyBlock1 ⟨setKidsR nid (.rlist kids) s.tree, s.segs, s.count, s.t1, s.t2⟩ k)
      | .fail =>
        some (Sys.setCfg
          ⟨setErrR nid (setKidsR nid (.lazyFn l) s.tree), s.segs, s.count, s.t1, s.t2⟩
          k .finished)
    | _ => none

def run (s : Sys) : List Label → Option Sys
  | [] => some s
  | lab :: tr =>
    match stepL s lab with
    | none => none
    | some s' => run s' tr

def initSys (tree : Route) (segs : List String) : Sys :=
  ⟨tree, segs, fun _ => 0, .notStarted, .notStarted⟩

def mTree : Route := .mk 1 (some "sec") 10 none false (.lazyFn 7)



theorem pathSegs_mk (n : Nat) (p : Option String) (cp : Nat) (f : Option Nat) (e : Bool)
    (ch : Kids) : pathSegs (.mk n p cp f e ch) = segsOfPath p := rfl

theorem matchRoutes_cons (r : Route) (rest : Routes) (segs : List String) (idx : Nat) :
    matchRoutes (.cons r rest) segs idx =
      (matchOne r segs idx).getD (matchRoutes rest segs idx) := by
  rw [matchRoutes]
  cases matchOne r segs idx <;> rfl

theorem matchOne_lazyFn (n : Nat) (p : Option String) (cp : Nat) (f : Option Nat) (e : Bool)
    (l : Nat) (segs : List String) (idx : Nat) :
    matchOne (.mk n p cp f e (.lazyFn l)) segs idx =
      (if (segsOfPath p).length > segs.length + idx then some []
       else (matchSegs (segsOfPath p) segs idx []).bind (fun params =>
         if idx + (segsOfPath p).length ≤ segs.length
         then some [⟨.mk n p cp f e (.lazyFn l), params⟩]
         else if idx + (segsOfPath p).length = segs.length
         then some [⟨.mk n p cp f e (.lazyFn l), params⟩]
         else none)) := by
  rw [matchOne]
  simp only [pathSegs_mk]
  split
  · rfl
  · cases matchSegs (segsOfPath p) segs idx [] <;> rfl

theorem matchOne_lazyPromise (n : Nat) (p : Option String) (cp : Nat) (f : Option Nat)
    (e : Bool) (l : Nat) (segs : List String) (idx : Nat) :
    matchOne (.mk n p cp f e (.lazyPromise l)) segs idx =
      (if (segsOfPath p).length > segs.length + idx then some []
       else (matchSegs (segsOfPath p) segs idx []).bind (fun params =>
         if idx + (segsOfPath p).length ≤ segs.length
         then some [⟨.mk n p cp f e (.lazyPromise l), params⟩]
         else if idx + (segsOfPath p).length = segs.length
         then some [⟨.mk n p cp f e (.lazyPromise l), params⟩]
         else none)) := by
  rw [matchOne]
  simp only [pathSegs_mk]
  split
  · rfl
  · cases matchSegs (segsOfPath p) segs idx [] <;> rfl

theorem matchOne_rlist_nil (n : Nat) (p : Option String) (cp : Nat) (f : Option Nat)
    (e : Bool) (segs : List String) (idx : Nat) :
    matchOne (.mk n p cp f e (.rlist .nil)) segs idx =
      (if (segsOfPath p).length > segs.length + idx then some []
       else (matchSegs (segsOfPath p) segs idx []).bind (fun params =>
         if idx + (segsOfPath p).length = segs.length
         then some [⟨.mk n p cp f e (.rlist .nil), params⟩]
         else none)) := by
  rw [matchOne]
  simp only [pathSegs_mk]
  split
  · rfl
  · cases matchSegs (segsOfPath p) segs idx [] <;> rfl

theorem matchOne_rlist_cons (n : Nat) (p : Option String) (cp : Nat) (f : Option Nat)
    (e : Bool) (k : Route) (ks : Routes) (segs : List String) (idx : Nat) :
    matchOne (.mk n p cp f e (.rlist (.cons k ks))) segs idx =
      (if (segsOfPath p).length > segs.length + idx then some []
       else (matchSegs (segsOfPath p) segs idx []).bind (fun params =>
         if matchRoutes (.cons k ks) segs (idx + (segsOfPath p).length) ≠ []
         then some (⟨.mk n p cp f e (.rlist (.cons k ks)), params⟩ ::
           matchRoutes (.cons k ks) segs (idx + (segsOfPath p).length))
         else if idx + (segsOfPath p).length = segs.length
         then some [⟨.mk n p cp f e (.rlist (.cons k ks)), params⟩]
         else none)) := by
  rw [matchOne]
  simp only [pathSegs_mk]
  split
  · rfl
  · cases matchSegs (segsOfPath p) segs idx [] <;> rfl

theorem setKidsR_target (t : Nat) (c : Kids) (n : Nat) (p : Option String) (cp : Nat)
    (f : Option Nat) (e : Bool) (ch : Kids) (h : n = t) :
    setKidsR t c (.mk n p cp f e ch) = .mk n p cp f e c := by
  rw [setKidsR, if_pos h]

theorem setKidsR_other (t : Nat) (c : Kids) (n : Nat) (p : Option String) (cp : Nat)
    (f : Option Nat) (e : Bool) (ch : Kids) (h : ¬n = t) :
    setKidsR t c (.mk n p cp f e ch) = .mk n p cp f e (setKidsK t c ch) := by
  rw [setKidsR, if_neg h]

/-- A chain entry after the in-place replacement of node `d`'s loader
    function by its promise. -/
def swapProm (d l₀ : Nat) (m : RouteMatch) : RouteMatch :=
  ⟨setKidsR d (.lazyPromise l₀) m.route, m.params⟩

/-- Node identity `d` is exactly the node holding loader function `l₀`. -/
def BicondRs (d l₀ : Nat) (rs : Routes) : Prop :=
  ∀ x ∈ Routes.allNodes rs, (Route.nid x = d ↔ Route.children x = .lazyFn l₀)

def BicondR (d l₀ : Nat) (r : Route) : Prop :=
  ∀ x ∈ Route.allNodes r, (Route.nid x = d ↔ Route.children x = .lazyFn l₀)

theorem BicondR_self (d l₀ : Nat) (n : Nat) (p : Option String) (cp : Nat) (f : Option Nat)
    (e : Bool) (ch : Kids) (hb : BicondR d l₀ (.mk n p cp f e ch)) :
    n = d ↔ ch = .lazyFn l₀ := by
  have := hb (.mk n p cp f e ch) (by simp [Route.allNodes])
  simpa [Route.nid, Route.children] using this

theorem BicondR_kids (d l₀ : Nat) (n : Nat) (p : Option String) (cp : Nat) (f : Option Nat)
    (e : Bool) (kids : Routes) (hb : BicondR d l₀ (.mk n p cp f e (.rlist kids))) :
    BicondRs d l₀ kids := by
  intro x hx
  exact hb x (by simp [Route.allNodes, Kids.allNodes, hx])

theorem BicondRs_head (d l₀ : Nat) (r : Route) (rest : Routes)
    (hb : BicondRs d l₀ (.cons r rest)) : BicondR d l₀ r := by
  intro x hx
  exact hb x (by simp [Routes.allNodes, hx])

theorem BicondRs_tail (d l₀ : Nat) (r : Route) (rest : Routes)
    (hb : BicondRs d l₀ (.cons r rest)) : BicondRs d l₀ rest := by
  intro x hx
  exact hb x (by simp [Routes.allNodes, hx])

theorem matchOne_swap (d l₀ : Nat) :
    ∀ r, (∀ kids : Routes, sizeOf kids < sizeOf r → ∀ segs idx, BicondRs d l₀ kids →
        matchRoutes (setKidsRs d (.lazyPromise l₀) kids) segs idx =
          (matchRoutes kids segs idx).map (swapProm d l₀)) →
      ∀ segs idx, BicondR d l₀ r →
        matchOne (setKidsR d (.lazyPromise l₀) r) segs idx =
          (matchOne r segs idx).map (fun res => res.map (swapProm d l₀)) := by
  intro r ihk segs idx hb
  match r with
  | .mk n p cp f e (.lazyFn l) =>
    have hiff := BicondR_self d l₀ n p cp f e _ hb
    by_cases hn : n = d
    · have hl : l = l₀ := by
        have h2 := hiff.mp hn
        simpa using h2
      subst hl
      rw [setKidsR_target d _ n p cp f e _ hn]
      rw [matchOne_lazyPromise, matchOne_lazyFn]
      by_cases hg : (segsOfPath p).length > segs.length + idx
      · rw [if_pos hg]
        try rw [if_pos hg]
        simp
      · rw [if_neg hg]
        try rw [if_neg hg]
        cases hms : matchSegs (segsOfPath p) segs idx [] with
        | none => simp
        | some params =>
          simp only [Option.some_bind, Option.map_some]
          by_cases h1 : idx + (segsOfPath p).length ≤ segs.length
          · rw [if_pos h1]
            try rw [if_pos h1]
            simp [swapProm, setKidsR_target d _ n p cp f e _ hn]
          · rw [if_neg h1]
            try rw [if_neg h1]
            by_cases h2 : idx + (segsOfPath p).length = segs.length
            · rw [if_pos h2]
              try rw [if_pos h2]
              simp [swapProm, setKidsR_target d _ n p cp f e _ hn]
            · rw [if_neg h2]
              try rw [if_neg h2]
              simp
    · rw [setKidsR_other d _ n p cp f e _ hn]
      rw [show setKidsK d (.lazyPromise l₀) (.lazyFn l) = .lazyFn l from rfl]
      rw [matchOne_lazyFn]
      by_cases hg : (segsOfPath p).length > segs.length + idx
      · rw [if_pos hg]
        try rw [if_pos hg]
        simp
      · rw [if_neg hg]
        try rw [if_neg hg]
        cases hms : matchSegs (segsOfPath p) segs idx [] with
        | none => simp
        | some params =>
          simp only [Option.some_bind, Option.map_some]
          by_cases h1 : idx + (segsOfPath p).length ≤ segs.length
          · rw [if_pos h1]
            try rw [if_pos h1]
            simp [swapProm, setKidsR_other d _ n p cp f e _ hn, setKidsK, setKidsRs]
          · rw [if_neg h1]
            try rw [if_neg h1]
            by_cases h2 : idx + (segsOfPath p).length = segs.length
            · rw [if_pos h2]
              try rw [if_pos h2]
              simp [swapProm, setKidsR_other d _ n p cp f e _ hn, setKidsK, setKidsRs]
            · rw [if_neg h2]
              try rw [if_neg h2]
              simp
  | .mk n p cp f e (.lazyPromise l) =>
    have hiff := BicondR_self d l₀ n p cp f e _ hb
    have hn : ¬n = d := by
      intro h
      have := hiff.mp h
      simp at this
    rw [setKidsR_other d _ n p cp f e _ hn]
    rw [show setKidsK d (.lazyPromise l₀) (.lazyPromise l) = .lazyPromise l from rfl]
    rw [matchOne_lazyPromise]
    by_cases hg : (segsOfPath p).length > segs.length + idx
    · rw [if_pos hg]
      try rw [if_pos hg]
      simp
    · rw [if_neg hg]
      try rw [if_neg hg]
      cases hms : matchSegs (segsOfPath p) segs idx [] with
      | none => simp
      | some params =>
        simp only [Option.some_bind, Option.map_some]
        by_cases h1 : idx + (segsOfPath p).length ≤ segs.length
        · rw [if_pos h1]
          try rw [if_pos h1]
          simp [swapProm, setKidsR_other d _ n p cp f e _ hn, setKidsK, setKidsRs]
        · rw [if_neg h1]
          try rw [if_neg h1]
          by_cases h2 : idx + (segsOfPath p).length = segs.length
          · rw [if_pos h2]
            try rw [if_pos h2]
            simp [swapProm, setKidsR_other d _ n p cp f e _ hn, setKidsK, setKidsRs]
          · rw [if_neg h2]
            try rw [if_neg h2]
            simp
  | .mk n p cp f e (.rlist .nil) =>
    have hiff := BicondR_self d l₀ n p cp f e _ hb
    have hn : ¬n = d := by
      intro h
      have := hiff.mp h
      simp at this
    rw [setKidsR_other d _ n p cp f e _ hn]
    rw [show setKidsK d (.lazyPromise l₀) (.rlist .nil) = .rlist .nil from rfl]
    rw [matchOne_rlist_nil]
    by_cases hg : (segsOfPath p).length > segs.length + idx
    · rw [if_pos hg]
      try rw [if_pos hg]
      simp
    · rw [if_neg hg]
      try rw [if_neg hg]
      cases hms : matchSegs (segsOfPath p) segs idx [] with
      | none => simp
      | some params =>
        simp only [Option.some_bind, Option.map_some]
        by_cases h2 : idx + (segsOfPath p).length = segs.length
        · rw [if_pos h2]
          try rw [if_pos h2]
          simp [swapProm, setKidsR_other d _ n p cp f e _ hn, setKidsK, setKidsRs]
        · rw [if_neg h2]
          try rw [if_neg h2]
          simp
  | .mk n p cp f e (.rlist (.cons k ks)) =>
    have hiff := BicondR_self d l₀ n p cp f e _ hb
    have hn : ¬n = d := by
      intro h
      have := hiff.mp h
      simp at this
    have hrec := ihk (.cons k ks) (sizeOf_kids_lt' n p cp f e (.cons k ks)) segs
      (idx + (segsOfPath p).length)
      (BicondR_kids d l₀ n p cp f e _ hb)
    rw [setKidsR_other d _ n p cp f e _ hn]
    rw [show setKidsK d (.lazyPromise l₀) (.rlist (.cons k ks)) =
      .rlist (.cons (setKidsR d (.lazyPromise l₀) k) (setKidsRs d (.lazyPromise l₀) ks))
      from rfl]
    rw [matchOne_rlist_cons, matchOne_rlist_cons]
    by_cases hg : (segsOfPath p).length > segs.length + idx
    · rw [if_pos hg]
      try rw [if_pos hg]
      simp
    · rw [if_neg hg]
      try rw [if_neg hg]
      cases hms : matchSegs (segsOfPath p) segs idx [] with
      | none => simp
      | some params =>
        simp only [Option.some_bind, Option.map_some]
        have hch : matchRoutes
            (.cons (setKidsR d (.lazyPromise l₀) k) (setKidsRs d (.lazyPromise l₀) ks))
            segs (idx + (segsOfPath p).length) =
            (matchRoutes (.cons k ks) segs (idx + (segsOfPath p).length)).map
              (swapProm d l₀) := hrec
        rw [hch]
        by_cases hc : matchRoutes (.cons k ks) segs (idx + (segsOfPath p).length) = []
        · rw [hc]
          simp only [List.map_nil]
          by_cases h2 : idx + (segsOfPath p).length = segs.length
          · rw [if_pos h2]
            try rw [if_pos h2]
            simp [swapProm, setKidsR_other d _ n p cp f e _ hn, setKidsK, setKidsRs]
          · rw [if_neg h2]
            try rw [if_neg h2]
            simp
        · have hc' : (matchRoutes (.cons k ks) segs
              (idx + (segsOfPath p).length)).map (swapProm d l₀) ≠ [] := by
            simpa using hc
          rw [if_pos hc', if_pos hc]
          simp [swapProm, setKidsR_other d _ n p cp f e _ hn, setKidsK, setKidsRs]

theorem matchRoutes_swap (d l₀ : Nat) :
    ∀ rs, ∀ segs idx, BicondRs d l₀ rs →
      matchRoutes (setKidsRs d (.lazyPromise l₀) rs) segs idx =
        (matchRoutes rs segs idx).map (swapProm d l₀) := by
  apply Routes.strongRecOn
  intro rs ih segs idx hb
  match rs with
  | .nil => rfl
  | .cons r rest =>
    have hkids : ∀ kids : Routes, sizeOf kids < sizeOf r → ∀ s i, BicondRs d l₀ kids →
        matchRoutes (setKidsRs d (.lazyPromise l₀) kids) s i =
          (matchRoutes kids s i).map (swapProm d l₀) := by
      intro kids hk s i hb'
      have hlt : sizeOf kids < sizeOf (Routes.cons r rest) := by
        have := Routes.cons.sizeOf_spec r rest
        omega
      exact ih kids hlt s i hb'
    have hone := matchOne_swap d l₀ r hkids segs idx (BicondRs_head d l₀ r rest hb)
    rw [show setKidsRs d (.lazyPromise l₀) (.cons r rest) =
      .cons (setKidsR d (.lazyPromise l₀) r) (setKidsRs d (.lazyPromise l₀) rest) from rfl]
    rw [matchRoutes_cons, matchRoutes_cons, hone]
    cases matchOne r segs idx with
    | some res => simp
    | none =>
      simp only [Option.map_none, Option.getD_none]
      have hlt : sizeOf rest < sizeOf (Routes.cons r rest) := by
        have := Routes.cons.sizeOf_spec r rest
        omega
      exact ih rest hlt segs idx (BicondRs_tail d l₀ r rest hb)

/-- No node of the tree holds the loader function `l` as its children. -/
def NoFnR (l : Nat) (r : Route) : Prop :=
  ∀ x ∈ Route.allNodes r, Route.children x ≠ .lazyFn l

def NoFnK (l : Nat) (c : Kids) : Prop :=
  ∀ x ∈ Kids.allNodes c, Route.children x ≠ .lazyFn l

def RoutesNoFn (l : Nat) (rs : Routes) : Prop :=
  ∀ x ∈ Routes.allNodes rs, Route.children x ≠ .lazyFn l

theorem setKidsK_eq_lazyFn_iff (t : Nat) (c : Kids) (ch : Kids) (l : Nat) :
    setKidsK t c ch = .lazyFn l ↔ ch = .lazyFn l := by
  cases ch <;> simp [setKidsK]

mutual
theorem setKidsR_nofn (l₀ t : Nat) (c : Kids) (hc1 : c ≠ Kids.lazyFn l₀) (hc2 : NoFnK l₀ c) :
    (r : Route) →
      (∀ x ∈ Route.allNodes r, Route.children x = Kids.lazyFn l₀ → Route.nid x = t) →
      NoFnR l₀ (setKidsR t c r)
  | .mk n p cp f e ch, hr => by
    intro x hx
    by_cases hn : n = t
    · rw [setKidsR_target t c n p cp f e ch hn] at hx
      rw [show Route.allNodes (.mk n p cp f e c) =
        Route.mk n p cp f e c :: Kids.allNodes c from rfl] at hx
      rcases List.mem_cons.mp hx with rfl | hx
      · simpa [Route.children] using hc1
      · exact hc2 x hx
    · rw [setKidsR_other t c n p cp f e ch hn] at hx
      rw [show Route.allNodes (.mk n p cp f e (setKidsK t c ch)) =
        Route.mk n p cp f e (setKidsK t c ch) :: Kids.allNodes (setKidsK t c ch) from rfl] at hx
      rcases List.mem_cons.mp hx with rfl | hx
      · intro hcon
        rw [show Route.children (Route.mk n p cp f e (setKidsK t c ch)) =
          setKidsK t c ch from rfl] at hcon
        rw [setKidsK_eq_lazyFn_iff] at hcon
        exact hn (hr (.mk n p cp f e ch) (by simp [Route.allNodes])
          (by rw [show Route.children (Route.mk n p cp f e ch) = ch from rfl]; exact hcon))
      · exact setKidsK_nofn l₀ t c hc1 hc2 ch
          (fun y hy hyc => hr y (by
            rw [show Route.allNodes (.mk n p cp f e ch) =
              Route.mk n p cp f e ch :: Kids.allNodes ch from rfl]
            exact List.mem_cons_of_mem _ hy) hyc) x hx

theorem setKidsK_nofn (l₀ t : Nat) (c : Kids) (hc1 : c ≠ Kids.lazyFn l₀) (hc2 : NoFnK l₀ c) :
    (ch : Kids) →
      (∀ x ∈ Kids.allNodes ch, Route.children x = Kids.lazyFn l₀ → Route.nid x = t) →
      NoFnK l₀ (setKidsK t c ch)
  | .lazyFn l, _ => by
    intro x hx
    simp [setKidsK, Kids.allNodes] at hx
  | .lazyPromise l, _ => by
    intro x hx
    simp [setKidsK, Kids.allNodes] at hx
  | .rlist rs, hr => by
    intro x hx
    rw [show setKidsK t c (.rlist rs) = .rlist (setKidsRs t c rs) from rfl] at hx
    rw [show Kids.allNodes (.rlist (setKidsRs t c rs)) =
      Routes.allNodes (setKidsRs t c rs) from rfl] at hx
    exact setKidsRs_nofn l₀ t c hc1 hc2 rs hr x hx

theorem setKidsRs_nofn (l₀ t : Nat) (c : Kids) (hc1 : c ≠ Kids.lazyFn l₀) (hc2 : NoFnK l₀ c) :
    (rs : Routes) →
      (∀ x ∈ Routes.allNodes rs, Route.children x = Kids.lazyFn l₀ → Route.nid x = t) →
      RoutesNoFn l₀ (setKidsRs t c rs)
  | .nil, _ => by
    intro x hx
    simp [setKidsRs, Routes.allNodes] at hx
  | .cons r rest, hr => by
    intro x hx
    rw [show setKidsRs t c (.cons r rest) =
      .cons (setKidsR t c r) (setKidsRs t c rest) from rfl] at hx
    rw [show Routes.allNodes (.cons (setKidsR t c r) (setKidsRs t c rest)) =
      Route.allNodes (setKidsR t c r) ++ Routes.allNodes (setKidsRs t c rest) from rfl] at hx
    rcases List.mem_append.mp hx with hx | hx
    · exact setKidsR_nofn l₀ t c hc1 hc2 r
        (fun y hy hyc => hr y (by
          rw [show Routes.allNodes (.cons r rest) =
            Route.allNodes r ++ Routes.allNodes rest from rfl]
          exact List.mem_append_left _ hy) hyc) x hx
    · exact setKidsRs_nofn l₀ t c hc1 hc2 rest
        (fun y hy hyc => hr y (by
          rw [show Routes.allNodes (.cons r rest) =
            Route.allNodes r ++ Routes.allNodes rest from rfl]
          exact List.mem_append_right _ hy) hyc) x hx
end

theorem cfg_mkSys (tr : Route) (sg : List String) (ct : Nat → Nat) (a b : TaskCfg) (k : Bool) :
    Sys.cfg ⟨tr, sg, ct, a, b⟩ k = Sys.cfg ⟨tr, sg, ct, a, b⟩ k := rfl

theorem setCfg_cfg_same (s : Sys) (k : Bool) (c : TaskCfg) :
    Sys.cfg (Sys.setCfg s k c) k = c := by
  cases k <;> simp [Sys.cfg, Sys.setCfg]

theorem setCfg_cfg_other (s : Sys) (k : Bool) (c : TaskCfg) :
    Sys.cfg (Sys.setCfg s k c) (!k) = Sys.cfg s (!k) := by
  cases k <;> simp [Sys.cfg, Sys.setCfg]

theorem setCfg_tree (s : Sys) (k : Bool) (c : TaskCfg) :
    (Sys.setCfg s k c).tree = s.tree := by
  cases k <;> rfl

theorem setCfg_count (s : Sys) (k : Bool) (c : TaskCfg) :
    (Sys.setCfg s k c).count = s.count := by
  cases k <;> rfl

theorem setCfg_segs (s : Sys) (k : Bool) (c : TaskCfg) :
    (Sys.setCfg s k c).segs = s.segs := by
  cases k <;> rfl

theorem block1_none (tree : Route) (segs : List String) (t : Route)
    (h : block1 tree segs = (none, t)) : t = tree := by
  rw [block1] at h
  split at h
  · simp only [Prod.mk.injEq] at h
    exact h.2.symm
  · split at h
    · simp at h
    · simp only [Prod.mk.injEq] at h
      exact h.2.symm

theorem block1_some (tree : Route) (segs : List String) (nid l : Nat) (t : Route)
    (h : block1 tree segs = (some (nid, l), t)) :
    ∃ m, (matchRoutes (.cons tree .nil) segs 0).getLast? = some m ∧
      m.route.children = .lazyFn l ∧ m.route.nid = nid ∧
      t = setKidsR nid (.lazyPromise l) tree := by
  rw [block1] at h
  split at h
  · simp at h
  · rename_i m hlast
    split at h
    · rename_i l' hch
      simp only [Prod.mk.injEq, Option.some.injEq] at h
      obtain ⟨⟨h1, h2⟩, h3⟩ := h
      subst h1
      subst h2
      exact ⟨m, hlast, hch, rfl, h3.symm⟩
    · simp at h

theorem applyBlock1_props (s : Sys) (k : Bool) (l₀ : Nat) (hnf : NoFnR l₀ s.tree) :
    (applyBlock1 s k).count l₀ = s.count l₀ ∧
      NoFnR l₀ (applyBlock1 s k).tree ∧
      (applyBlock1 s k).segs = s.segs ∧
      Sys.cfg (applyBlock1 s k) (!k) = Sys.cfg s (!k) ∧
      Sys.cfg (applyBlock1 s k) k ≠ .notStarted := by
  have hmem : ∀ x ∈ Route.allNodes s.tree, x ∈ Routes.allNodes (.cons s.tree .nil) := by
    intro x hx
    rw [show Routes.allNodes (.cons s.tree .nil) =
      Route.allNodes s.tree ++ Routes.allNodes .nil from rfl]
    exact List.mem_append_left _ hx
  cases hb : block1 s.tree s.segs with
  | mk ores t =>
    cases ores with
    | none =>
      have ht : t = s.tree := block1_none s.tree s.segs t hb
      have happ : applyBlock1 s k =
          Sys.setCfg ⟨t, s.segs, s.count, s.t1, s.t2⟩ k .finished := by
        rw [applyBlock1, hb]
      subst ht
      rw [happ]
      refine ⟨by rw [setCfg_count], by rw [setCfg_tree]; exact hnf, by rw [setCfg_segs],
        ?_, ?_⟩
      · rw [setCfg_cfg_other]
      · rw [setCfg_cfg_same]
        simp
    | some pr =>
      obtain ⟨nid, l⟩ := pr
      obtain ⟨m, hlast, hch, hid, ht⟩ := block1_some s.tree s.segs nid l t hb
      have hmm : m.route ∈ Routes.allNodes (.cons s.tree .nil) :=
        matchRoutes_mem_allNodes (.cons s.tree .nil) s.segs 0 m
          (List.mem_of_mem_getLast? hlast)
      have hmem2 : m.route ∈ Route.allNodes s.tree := by
        rw [show Routes.allNodes (.cons s.tree .nil) =
          Route.allNodes s.tree ++ Routes.allNodes .nil from rfl] at hmm
        simpa [Routes.allNodes] using hmm
      have hlne : l ≠ l₀ := by
        intro hcon
        exact hnf m.route hmem2 (by rw [hch, hcon])
      have happ : applyBlock1 s k =
          Sys.setCfg ⟨t, s.segs, fun j => if j = l then s.count j + 1 else s.count j,
            s.t1, s.t2⟩ k (.waiting nid l) := by
        rw [applyBlock1, hb]
      rw [happ]
      refine ⟨?_, ?_, by rw [setCfg_segs], ?_, ?_⟩
      · rw [setCfg_count]
        simp [Ne.symm hlne]
      · rw [setCfg_tree]
        rw [show (Sys.mk t s.segs (fun j => if j = l then s.count j + 1 else s.count j)
          s.t1 s.t2).tree = t from rfl, ht]
        exact setKidsR_nofn l₀ nid (.lazyPromise l) (by simp)
          (by intro x hx; simp [Kids.allNodes] at hx) s.tree
          (fun y hy hyc => absurd hyc (hnf y hy))
      · rw [setCfg_cfg_other]
        cases k <;> rfl
      · rw [setCfg_cfg_same]
        simp

def TaskCfg.isActive : TaskCfg → Bool
  | .waiting _ _ => true
  | _ => false

theorem cfg_true (s : Sys) : Sys.cfg s true = s.t1 := rfl

theorem cfg_false (s : Sys) : Sys.cfg s false = s.t2 := rfl

/-- The invariant holding after both concurrent `preload` calls have run
    their first synchronous block: the loader `l₀` has been invoked exactly
    once; its loader function is no longer reachable in the tree, unless
    both calls have finished; at most one call is awaiting a promise; and
    neither call is unstarted. -/
def InvJ (l₀ : Nat) (s : Sys) : Prop :=
  s.count l₀ = 1 ∧
  (NoFnR l₀ s.tree ∨ (s.t1 = .finished ∧ s.t2 = .finished)) ∧
  ¬(TaskCfg.isActive s.t1 = true ∧ TaskCfg.isActive s.t2 = true) ∧
  s.t1 ≠ .notStarted ∧ s.t2 ≠ .notStarted

theorem stepL_preserves_inv (l₀ : Nat) (s : Sys) (lab : Label) (s' : Sys)
    (hJ : InvJ l₀ s)
    (hcl : ∀ k kids, lab = .settle k (.ok kids) → RoutesNoFn l₀ kids)
    (hstep : stepL s lab = some s') : InvJ l₀ s' := by
  obtain ⟨hcount, hdisj, hact, hns1, hns2⟩ := hJ
  cases lab with
  | start k =>
    rw [stepL] at hstep
    split at hstep
    · rename_i hcfg
      exfalso
      cases k
      · exact hns2 (by rw [← cfg_false]; exact hcfg)
      · exact hns1 (by rw [← cfg_true]; exact hcfg)
    · simp at hstep
  | settle k out =>
    rw [stepL] at hstep
    split at hstep
    · rename_i nid l hcfg
      have hnf : NoFnR l₀ s.tree := by
        rcases hdisj with h | ⟨hf1, hf2⟩
        · exact h
        · exfalso
          cases k
          · rw [cfg_false, hf2] at hcfg
            simp at hcfg
          · rw [cfg_true, hf1] at hcfg
            simp at hcfg
      have hother : Sys.cfg s (!k) = TaskCfg.finished := by
        cases k
        · have ht2 : s.t2 = TaskCfg.waiting nid l := by rw [← cfg_false]; exact hcfg
          have hna : TaskCfg.isActive s.t1 ≠ true := by
            intro hcon
            exact hact ⟨hcon, by rw [ht2]; rfl⟩
          cases h1 : s.t1 with
          | notStarted => exact absurd h1 hns1
          | waiting a b =>
            rw [h1] at hna
            simp [TaskCfg.isActive] at hna
          | finished => rw [show (!false) = true from rfl, cfg_true, h1]
        · have ht1 : s.t1 = TaskCfg.waiting nid l := by rw [← cfg_true]; exact hcfg
          have hna : TaskCfg.isActive s.t2 ≠ true := by
            intro hcon
            exact hact ⟨by rw [ht1]; rfl, hcon⟩
          cases h2 : s.t2 with
          | notStarted => exact absurd h2 hns2
          | waiting a b =>
            rw [h2] at hna
            simp [TaskCfg.isActive] at hna
          | finished => rw [show (!true) = false from rfl, cfg_false, h2]
      cases out with
      | ok kids =>
        simp only [Option.some.injEq] at hstep
        subst hstep
        have hclean := hcl k kids rfl
        have hnf1 : NoFnR l₀
            (Sys.tree ⟨setKidsR nid (.rlist kids) s.tree, s.segs, s.count, s.t1, s.t2⟩) := by
          rw [show Sys.tree ⟨setKidsR nid (.rlist kids) s.tree, s.segs, s.count,
            s.t1, s.t2⟩ = setKidsR nid (.rlist kids) s.tree from rfl]
          exact setKidsR_nofn l₀ nid (.rlist kids) (by simp)
            (by intro x hx
                rw [show Kids.allNodes (.rlist kids) = Routes.allNodes kids from rfl] at hx
                exact hclean x hx)
            s.tree (fun y hy hyc => absurd hyc (hnf y hy))
        have hprops := applyBlock1_props
          ⟨setKidsR nid (.rlist kids) s.tree, s.segs, s.count, s.t1, s.t2⟩ k l₀ hnf1
        obtain ⟨hc, hn, hsg, hco, hck⟩ := hprops
        cases k
        · -- task 2 settled: its partner (t1) stays finished
          have h1 : (applyBlock1 ⟨setKidsR nid (.rlist kids) s.tree, s.segs, s.count,
              s.t1, s.t2⟩ false).t1 = s.t1 := by
            rw [show (!false) = true from rfl] at hco
            rw [cfg_true, cfg_true] at hco
            exact hco
          have ht1fin : s.t1 = TaskCfg.finished := hother
          have hck2 : (applyBlock1 ⟨setKidsR nid (.rlist kids) s.tree, s.segs, s.count,
              s.t1, s.t2⟩ false).t2 ≠ TaskCfg.notStarted := by
            rw [← cfg_false]
            exact hck
          refine ⟨by rw [hc]; exact hcount, Or.inl hn, ?_, ?_, hck2⟩
          · intro hboth
            rw [h1, ht1fin] at hboth
            simp [TaskCfg.isActive] at hboth
          · rw [h1, ht1fin]
            simp
        · -- task 1 settled: its partner (t2) stays finished
          have h2 : (applyBlock1 ⟨setKidsR nid (.rlist kids) s.tree, s.segs, s.count,
              s.t1, s.t2⟩ true).t2 = s.t2 := by
            rw [show (!true) = false from rfl] at hco
            rw [cfg_false, cfg_false] at hco
            exact hco
          have ht2fin : s.t2 = TaskCfg.finished := hother
          have hck1 : (applyBlock1 ⟨setKidsR nid (.rlist kids) s.tree, s.segs, s.count,
              s.t1, s.t2⟩ true).t1 ≠ TaskCfg.notStarted := by
            rw [← cfg_true]
            exact hck
          refine ⟨by rw [hc]; exact hcount, Or.inl hn, ?_, hck1, ?_⟩
          · intro hboth
            rw [h2, ht2fin] at hboth
            simp [TaskCfg.isActive] at hboth
          · rw [h2, ht2fin]
            simp
      | fail =>
        simp only [Option.some.injEq] at hstep
        subst hstep
        have hfin1 : Sys.cfg (Sys.setCfg ⟨setErrR nid (setKidsR nid (.lazyFn l) s.tree),
            s.segs, s.count, s.t1, s.t2⟩ k .finished) k = TaskCfg.finished :=
          setCfg_cfg_same _ k _
        have hfin2 : Sys.cfg (Sys.setCfg ⟨setErrR nid (setKidsR nid (.lazyFn l) s.tree),
            s.segs, s.count, s.t1, s.t2⟩ k .finished) (!k) = TaskCfg.finished := by
          rw [setCfg_cfg_other]
          rw [← hother]
          cases k <;> rfl
        have hboth : ∀ j : Bool, Sys.cfg (Sys.setCfg ⟨setErrR nid
            (setKidsR nid (.lazyFn l) s.tree), s.segs, s.count, s.t1, s.t2⟩ k .finished) j =
            TaskCfg.finished := by
          intro j
          cases k <;> cases j <;> first
            | exact hfin1
            | exact hfin2
        refine ⟨by rw [setCfg_count]; exact hcount,
          Or.inr ⟨by rw [← cfg_true]; exact hboth true, by rw [← cfg_false]; exact hboth false⟩,
          ?_, ?_, ?_⟩
        · intro hcon
          have := hboth true
          rw [cfg_true] at this
          rw [this] at hcon
          simp [TaskCfg.isActive] at hcon
        · rw [← cfg_true, hboth true]
          simp
        · rw [← cfg_false, hboth false]
          simp
    · simp at hstep

theorem run_preserves_inv (l₀ : Nat) :
    ∀ (tr : List Label) (s : Sys), InvJ l₀ s →
      (∀ k kids, Label.settle k (.ok kids) ∈ tr → RoutesNoFn l₀ kids) →
      ∀ s', run s tr = some s' → InvJ l₀ s' := by
  intro tr
  induction tr with
  | nil =>
    intro s hJ _ s' hrun
    rw [run] at hrun
    simp only [Option.some.injEq] at hrun
    subst hrun
    exact hJ
  | cons lab rest ih =>
    intro s hJ hcl s' hrun
    rw [run] at hrun
    split at hrun
    · simp at hrun
    · rename_i s1 hstep
      exact ih s1
        (stepL_preserves_inv l₀ s lab s1 hJ
          (fun k kids hl => hcl k kids (by rw [hl]; exact List.mem_cons_self _ _)) hstep)
        (fun k kids hmem => hcl k kids (List.mem_cons_of_mem _ hmem)) s' hrun

theorem run_cons_some (s s' : Sys) (lab : Label) (tr : List Label)
    (h : stepL s lab = some s') : run s (lab :: tr) = run s' tr := by
  rw [run, h]

/-- C2: invoking `preload` twice concurrently on a path whose deepest match is a
    route node in the `Unresolved` state (children still a loader function `l₀` at
    node `d`) results in exactly one invocation of the loader: the first call's
    synchronous prefix replaces the function by the returned promise, so the
    second call's synchronous prefix sees a non-function and returns, and the
    count of loader invocations is still `1` after any interleaving of the
    remaining steps. -/
theorem c2_concurrent_preload (tree : Route) (segs : List String)
    (d l₀ : Nat) (m : RouteMatch) (k : Bool) (rest : List Label) (sF : Sys)
    (hm : (matchRoutes (.cons tree .nil) segs 0).getLast? = some m)
    (hid : m.route.nid = d) (hfn : m.route.children = .lazyFn l₀)
    (hbic : ∀ x ∈ Route.allNodes tree, (Route.nid x = d ↔ Route.children x = .lazyFn l₀))
    (hclean : ∀ k' kids, Label.settle k' (.ok kids) ∈ rest → RoutesNoFn l₀ kids)
    (hrun : run (initSys tree segs) (.start k :: .start (!k) :: rest) = some sF) :
    sF.count l₀ = 1 := by
  obtain ⟨rt, pms⟩ := m
  obtain ⟨nm, pm, cm, fm, em, chm⟩ := rt
  have hnm : nm = d := hid
  have hchm : chm = Kids.lazyFn l₀ := hfn
  subst hchm
  rw [hnm] at hm
  -- the first call's synchronous block invokes the loader and caches the promise
  have hb1 : block1 tree segs = (some (d, l₀), setKidsR d (Kids.lazyPromise l₀) tree) := by
    rw [block1, hm]
    rfl
  have hstep1 : stepL (initSys tree segs) (.start k) =
      some (applyBlock1 (initSys tree segs) k) := by
    cases k <;> rfl
  have hs₁ : applyBlock1 (initSys tree segs) k =
      Sys.setCfg ⟨setKidsR d (Kids.lazyPromise l₀) tree, segs,
        (fun j => if j = l₀ then 1 else 0), .notStarted, .notStarted⟩ k
        (.waiting d l₀) := by
    rw [applyBlock1, show (initSys tree segs).tree = tree from rfl,
      show (initSys tree segs).segs = segs from rfl, hb1]
    rfl
  -- the second call sees the cached promise: its synchronous block is a no-op
  have hbicRs : ∀ x ∈ Routes.allNodes (.cons tree .nil),
      (Route.nid x = d ↔ Route.children x = .lazyFn l₀) := by
    intro x hx
    rw [show Routes.allNodes (.cons tree .nil) =
      Route.allNodes tree ++ Routes.allNodes .nil from rfl,
      show Routes.allNodes .nil = [] from rfl, List.append_nil] at hx
    exact hbic x hx
  have hswap := matchRoutes_swap d l₀ (.cons tree .nil) segs 0 hbicRs
  have hswm : swapProm d l₀ ⟨Route.mk d pm cm fm em (Kids.lazyFn l₀), pms⟩ =
      (⟨Route.mk d pm cm fm em (Kids.lazyPromise l₀), pms⟩ : RouteMatch) := by
    rw [show swapProm d l₀ ⟨Route.mk d pm cm fm em (Kids.lazyFn l₀), pms⟩ =
      (⟨setKidsR d (Kids.lazyPromise l₀) (Route.mk d pm cm fm em (Kids.lazyFn l₀)),
        pms⟩ : RouteMatch) from rfl,
      setKidsR_target d (Kids.lazyPromise l₀) d pm cm fm em (Kids.lazyFn l₀) rfl]
  have hlast2 : (matchRoutes (.cons (setKidsR d (Kids.lazyPromise l₀) tree) .nil)
      segs 0).getLast? =
      some (⟨Route.mk d pm cm fm em (Kids.lazyPromise l₀), pms⟩ : RouteMatch) := by
    rw [show Routes.cons (setKidsR d (Kids.lazyPromise l₀) tree) .nil =
      setKidsRs d (Kids.lazyPromise l₀) (.cons tree .nil) from rfl, hswap,
      List.getLast?_map, hm]
    rw [show Option.map (swapProm d l₀)
      (some (⟨Route.mk d pm cm fm em (Kids.lazyFn l₀), pms⟩ : RouteMatch)) =
      some (swapProm d l₀ ⟨Route.mk d pm cm fm em (Kids.lazyFn l₀), pms⟩) from rfl, hswm]
  have hb2 : block1 (setKidsR d (Kids.lazyPromise l₀) tree) segs =
      (none, setKidsR d (Kids.lazyPromise l₀) tree) := by
    rw [block1, hlast2]
    rfl
  have hcfg1 : Sys.cfg (Sys.setCfg ⟨setKidsR d (Kids.lazyPromise l₀) tree, segs,
      (fun j => if j = l₀ then 1 else 0), .notStarted, .notStarted⟩ k
      (.waiting d l₀)) (!k) = TaskCfg.notStarted := by
    rw [setCfg_cfg_other]
    cases k <;> rfl
  have hstep2 : stepL (Sys.setCfg ⟨setKidsR d (Kids.lazyPromise l₀) tree, segs,
      (fun j => if j = l₀ then 1 else 0), .notStarted, .notStarted⟩ k
      (.waiting d l₀)) (.start (!k)) =
      some (applyBlock1 (Sys.setCfg ⟨setKidsR d (Kids.lazyPromise l₀) tree, segs,
        (fun j => if j = l₀ then 1 else 0), .notStarted, .notStarted⟩ k
        (.waiting d l₀)) (!k)) := by
    rw [stepL, hcfg1]
  have happ2 : ∀ s : Sys, block1 s.tree s.segs = (none, s.tree) →
      applyBlock1 s (!k) = Sys.setCfg s (!k) .finished := by
    intro s hb
    rw [applyBlock1, hb]
  have hb2' : block1 (Sys.setCfg ⟨setKidsR d (Kids.lazyPromise l₀) tree, segs,
      (fun j => if j = l₀ then 1 else 0), .notStarted, .notStarted⟩ k
      (.waiting d l₀)).tree (Sys.setCfg ⟨setKidsR d (Kids.lazyPromise l₀) tree, segs,
      (fun j => if j = l₀ then 1 else 0), .notStarted, .notStarted⟩ k
      (.waiting d l₀)).segs =
      (none, (Sys.setCfg ⟨setKidsR d (Kids.lazyPromise l₀) tree, segs,
        (fun j => if j = l₀ then 1 else 0), .notStarted, .notStarted⟩ k
        (.waiting d l₀)).tree) := by
    rw [setCfg_tree, setCfg_segs]
    exact hb2
  have hs₂ := happ2 _ hb2'
  have hnf1 : NoFnR l₀ (setKidsR d (Kids.lazyPromise l₀) tree) :=
    setKidsR_nofn l₀ d (Kids.lazyPromise l₀) (by simp)
      (by
        intro x hx
        rw [show Kids.allNodes (Kids.lazyPromise l₀) = [] from rfl] at hx
        exact absurd hx (List.not_mem_nil x))
      tree (fun y hy hyc => (hbic y hy).mpr hyc)
  have hJ2 : InvJ l₀ (Sys.setCfg (Sys.setCfg ⟨setKidsR d (Kids.lazyPromise l₀) tree,
      segs, (fun j => if j = l₀ then 1 else 0), .notStarted, .notStarted⟩ k
      (.waiting d l₀)) (!k) .finished) := by
    cases k
    · exact ⟨by simp [Sys.setCfg], Or.inl (by simpa [Sys.setCfg] using hnf1),
        by simp [Sys.setCfg, TaskCfg.isActive], by simp [Sys.setCfg],
        by simp [Sys.setCfg]⟩
    · exact ⟨by simp [Sys.setCfg], Or.inl (by simpa [Sys.setCfg] using hnf1),
        by simp [Sys.setCfg, TaskCfg.isActive], by simp [Sys.setCfg],
        by simp [Sys.setCfg]⟩
  rw [run_cons_some _ _ _ _ hstep1, hs₁, run_cons_some _ _ _ _ hstep2, hs₂] at hrun
  exact (run_preserves_inv l₀ rest _ hJ2 hclean sF hrun).1

theorem c2_concurrent_preload_witness :
    ((run (initSys mTree ["sec"]) [.start true, .start false,
      .settle true (.ok .nil)]).getD (initSys mTree ["sec"])).count 7 = 1 :=
  c2_concurrent_preload mTree ["sec"] 1 7
    ⟨Route.mk 1 (some "sec") 10 none false (.lazyFn 7), []⟩ true
    [.settle true (.ok .nil)] _
    rfl rfl rfl
    (by decide)
    (by
      intro k' kids hmem
      simp at hmem
      obtain ⟨h1, h2⟩ := hmem
      subst h2
      intro x hx
      rw [show Routes.allNodes Routes.nil = [] from rfl] at hx
      exact absurd hx (List.not_mem_nil x))
    rfl

/-- C3 counterexample: after a failed load (`start` then `settle .fail`), the
    node is in the Failed state - its loader function is restored as `children`
    and its `error` field is set - yet a subsequent `preload` call against the
    same URL re-invokes the loader: the invocation count reaches `2`. -/
theorem c3_counterexample :
    (run (initSys mTree ["sec"]) [.start true, .settle true .fail]).map
        (fun s => (s.tree, s.count 7)) =
      some (Route.mk 1 (some "sec") 10 none true (.lazyFn 7), 1) ∧
    (run (initSys mTree ["sec"]) [.start true, .settle true .fail,
      .start false]).map (fun s => s.count 7) = some 2 :=
  ⟨by decide, by decide⟩

/-- C3 amended: a route node in the Failed state (loader function restored as
    `children`, `error` set) is indistinguishable to `preload`'s guard
    (`typeof children !== "function"`) from a never-loaded node, so a fresh
    `preload` pass whose deepest match is that node invokes the loader again,
    incrementing the invocation count. The loader IS retried automatically. -/
theorem c3_failed_state_retries (tree : Route) (segs : List String) (d l₀ : Nat)
    (m : RouteMatch) (s : Sys) (k : Bool)
    (ht : s.tree = tree) (hsg : s.segs = segs)
    (hm : (matchRoutes (.cons tree .nil) segs 0).getLast? = some m)
    (hid : m.route.nid = d) (hfn : m.route.children = .lazyFn l₀)
    (herr : m.route.err = true)
    (hcfg : Sys.cfg s k = .notStarted) :
    stepL s (.start k) = some (applyBlock1 s k) ∧
    (applyBlock1 s k).count l₀ = s.count l₀ + 1 := by
  obtain ⟨rt, pms⟩ := m
  obtain ⟨nm, pm, cm, fm, em, chm⟩ := rt
  have hnm : nm = d := hid
  have hchm : chm = Kids.lazyFn l₀ := hfn
  subst hchm
  rw [hnm] at hm
  have hb1 : block1 tree segs = (some (d, l₀), setKidsR d (Kids.lazyPromise l₀) tree) := by
    rw [block1, hm]
    rfl
  constructor
  · rw [stepL, hcfg]
  · rw [applyBlock1, ht, hsg, hb1]
    rw [show (Sys.setCfg ⟨setKidsR d (Kids.lazyPromise l₀) tree, segs,
      (fun j => if j = l₀ then s.count j + 1 else s.count j), s.t1, s.t2⟩ k
      (.waiting d l₀)).count =
      (fun j => if j = l₀ then s.count j + 1 else s.count j) from setCfg_count _ _ _]
    simp

theorem c3_failed_state_retries_witness :
    stepL ((run (initSys mTree ["sec"]) [.start true, .settle true .fail]).getD
        (initSys mTree ["sec"])) (.start false) =
      some (applyBlock1 ((run (initSys mTree ["sec"]) [.start true,
        .settle true .fail]).getD (initSys mTree ["sec"])) false) ∧
    (applyBlock1 ((run (initSys mTree ["sec"]) [.start true,
      .settle true .fail]).getD (initSys mTree ["sec"])) false).count 7 =
      ((run (initSys mTree ["sec"]) [.start true, .settle true .fail]).getD
        (initSys mTree ["sec"])).count 7 + 1 :=
  c3_failed_state_retries (Route.mk 1 (some "sec") 10 none true (.lazyFn 7)) ["sec"]
    1 7 ⟨Route.mk 1 (some "sec") 10 none true (.lazyFn 7), []⟩ _ false
    rfl rfl rfl rfl rfl rfl rfl


namespace RouterV2

/-- One lazy load started by `preload` (v0.2.0): the route reference whose
    component it resolves, the tick at which its promise settles, whether it
    fulfills or rejects, and the resolved component. -/
structure Load : Type where
  ref : Nat
  time : Nat
  ok : Bool
  comp : Nat
deriving DecidableEq

/-- Observable state of one `preload` pass: components cached so far by the
    per-load continuations, refs whose load fulfilled, refs whose load
    rejected, and the `Promise.all` join (`none` while pending, else the
    fulfilled/rejected flag and settle tick). -/
structure PState : Type where
  caches : List (Nat × Nat)
  settledOk : List Nat
  settledFail : List Nat
  join : Option (Bool × Nat)
deriving DecidableEq

def initP : PState := ⟨[], [], [], none⟩

/-- A settling promise runs its continuation: `m.route.component = await
    lz.promise` caches the component on fulfill; on reject the `await` throws
    inside the async callback, so nothing is written and the callback's own
    promise rejects. -/
def settleOne (st : PState) (l : Load) : PState :=
  if l.ok then ⟨(l.ref, l.comp) :: st.caches, l.ref :: st.settledOk, st.settledFail, st.join⟩
  else ⟨st.caches, st.settledOk, l.ref :: st.settledFail, st.join⟩

/-- ECMAScript `Promise.all`: once settled it stays settled; while pending it
    rejects as soon as any input has rejected, and fulfills once every input
    has fulfilled. -/
def joinNext (ls : List Load) (t : Nat) (st1 : PState) : Option (Bool × Nat) :=
  match st1.join with
  | some j => some j
  | none =>
    if st1.settledFail ≠ [] then some (false, t)
    else if ls.all (fun l => st1.settledOk.contains l.ref) then some (true, t)
    else none

/-- One tick of the pass: every load whose promise settles now runs its
    continuation, then the `Promise.all` join reacts. -/
def stepP (ls : List Load) (t : Nat) (st : PState) : PState :=
  let st1 := (ls.filter (fun l => l.time == t)).foldl settleOne st
  ⟨st1.caches, st1.settledOk, st1.settledFail, joinNext ls t st1⟩

def runP (ls : List Load) : Nat → PState
  | 0 => stepP ls 0 initP
  | t + 1 => stepP ls (t + 1) (runP ls t)

theorem foldl_settleOne_join (st : PState) :
    ∀ ns : List Load, (ns.foldl settleOne st).join = st.join := by
  intro ns
  induction ns generalizing st with
  | nil => rfl
  | cons n ns ih =>
    rw [List.foldl_cons, ih]
    rw [settleOne]
    split <;> rfl

theorem foldl_settleOne_caches_mono (x : Nat × Nat) :
    ∀ ns : List Load, ∀ st : PState, x ∈ st.caches → x ∈ (ns.foldl settleOne st).caches := by
  intro ns
  induction ns with
  | nil => exact fun st h => h
  | cons n ns ih =>
    intro st hx
    rw [List.foldl_cons]
    refine ih _ ?_
    rw [settleOne]
    split
    · exact List.mem_cons_of_mem _ hx
    · exact hx

theorem foldl_settleOne_caches_settles (l : Load) :
    ∀ ns : List Load, ∀ st : PState, l ∈ ns → l.ok = true →
      (l.ref, l.comp) ∈ (ns.foldl settleOne st).caches := by
  intro ns
  induction ns with
  | nil => intro st h; cases h
  | cons n ns ih =>
    intro st hmem hok
    rw [List.foldl_cons]
    rcases List.mem_cons.mp hmem with heq | htl
    · subst heq
      refine foldl_settleOne_caches_mono _ _ _ ?_
      rw [settleOne, if_pos hok]
      exact List.mem_cons_self _ _
    · exact ih _ htl hok

theorem foldl_settleOne_fail_mono (r : Nat) :
    ∀ ns : List Load, ∀ st : PState, r ∈ st.settledFail →
      r ∈ (ns.foldl settleOne st).settledFail := by
  intro ns
  induction ns with
  | nil => exact fun st h => h
  | cons n ns ih =>
    intro st hr
    rw [List.foldl_cons]
    refine ih _ ?_
    rw [settleOne]
    split
    · exact hr
    · exact List.mem_cons_of_mem _ hr

theorem foldl_settleOne_fail (l : Load) :
    ∀ ns : List Load, ∀ st : PState, l ∈ ns → l.ok = false →
      l.ref ∈ (ns.foldl settleOne st).settledFail := by
  intro ns
  induction ns with
  | nil => intro st h; cases h
  | cons n ns ih =>
    intro st hmem hok
    rw [List.foldl_cons]
    rcases List.mem_cons.mp hmem with heq | htl
    · subst heq
      refine foldl_settleOne_fail_mono _ _ _ ?_
      rw [settleOne, if_neg (by rw [hok]; exact Bool.false_ne_true)]
      exact List.mem_cons_self _ _
    · exact ih _ htl hok

theorem stepP_join (ls : List Load) (t : Nat) (st : PState) :
    (stepP ls t st).join =
      joinNext ls t ((ls.filter (fun l => l.time == t)).foldl settleOne st) := rfl

theorem stepP_caches (ls : List Load) (t : Nat) (st : PState) :
    (stepP ls t st).caches =
      ((ls.filter (fun l => l.time == t)).foldl settleOne st).caches := rfl

theorem joinNext_frozen (ls : List Load) (t : Nat) (st1 : PState) (j : Bool × Nat)
    (h : st1.join = some j) : joinNext ls t st1 = some j := by
  rw [joinNext, h]

theorem joinNext_time (ls : List Load) (t : Nat) (st1 : PState) (j : Bool × Nat)
    (h : joinNext ls t st1 = some j) : st1.join = some j ∨ j.2 = t := by
  rw [joinNext] at h
  split at h
  · rename_i j' hj'
    left
    rw [hj']
    exact h
  · split at h
    · right
      cases h
      rfl
    · split at h
      · right
        cases h
        rfl
      · cases h

theorem stepP_join_frozen (ls : List Load) (t : Nat) (st : PState) (j : Bool × Nat)
    (h : st.join = some j) : (stepP ls t st).join = some j := by
  rw [stepP_join]
  refine joinNext_frozen _ _ _ _ ?_
  rw [foldl_settleOne_join]
  exact h

theorem stepP_caches_mono (ls : List Load) (t : Nat) (st : PState) (x : Nat × Nat)
    (h : x ∈ st.caches) : x ∈ (stepP ls t st).caches := by
  rw [stepP_caches]
  exact foldl_settleOne_caches_mono x _ st h

theorem stepP_settles (ls : List Load) (t : Nat) (st : PState) (l : Load)
    (hmem : l ∈ ls) (hok : l.ok = true) (ht : l.time = t) :
    (l.ref, l.comp) ∈ (stepP ls t st).caches := by
  rw [stepP_caches]
  refine foldl_settleOne_caches_settles l _ st ?_ hok
  rw [List.mem_filter]
  exact ⟨hmem, by rw [ht]; exact beq_self_eq_true t⟩

theorem stepP_fail_join (ls : List Load) (t : Nat) (st : PState) (l : Load)
    (hmem : l ∈ ls) (hok : l.ok = false) (ht : l.time = t)
    (hst : ∀ j, st.join = some j → j.2 ≤ t) :
    ∃ j, (stepP ls t st).join = some j ∧ j.2 ≤ t := by
  rcases hj : st.join with _ | j
  · refine ⟨(false, t), ?_, le_refl t⟩
    rw [stepP_join, joinNext, foldl_settleOne_join, hj]
    have hfail : l.ref ∈ ((ls.filter (fun l => l.time == t)).foldl settleOne st).settledFail := by
      refine foldl_settleOne_fail l _ st ?_ hok
      rw [List.mem_filter]
      exact ⟨hmem, by rw [ht]; exact beq_self_eq_true t⟩
    rw [if_pos (List.ne_nil_of_mem hfail)]
  · exact ⟨j, stepP_join_frozen ls t st j hj, hst j hj⟩

theorem runP_join_time (ls : List Load) :
    ∀ T j, (runP ls T).join = some j → j.2 ≤ T := by
  intro T
  induction T with
  | zero =>
    intro j h
    rw [runP, stepP_join] at h
    rcases joinNext_time _ _ _ _ h with h1 | h2
    · rw [foldl_settleOne_join] at h1
      cases h1
    · exact Nat.le_of_eq h2
  | succ t ih =>
    intro j h
    rw [runP, stepP_join] at h
    rcases joinNext_time _ _ _ _ h with h1 | h2
    · rw [foldl_settleOne_join] at h1
      exact Nat.le_succ_of_le (ih j h1)
    · exact Nat.le_of_eq h2

theorem runP_join_frozen (ls : List Load) (t : Nat) (j : Bool × Nat)
    (h : (runP ls t).join = some j) :
    ∀ T, t ≤ T → (runP ls T).join = some j := by
  intro T
  induction T with
  | zero =>
    intro hT
    rw [Nat.le_zero] at hT
    subst hT
    exact h
  | succ T ih =>
    intro hT
    rcases Nat.lt_or_ge t (T + 1) with hlt | hge
    · have hle : t ≤ T := Nat.lt_succ_iff.mp hlt
      rw [runP]
      exact stepP_join_frozen _ _ _ _ (ih hle)
    · have : t = T + 1 := Nat.le_antisymm hT hge
      subst this
      exact h

theorem runP_caches_mono (ls : List Load) (t : Nat) (x : Nat × Nat)
    (h : x ∈ (runP ls t).caches) :
    ∀ T, t ≤ T → x ∈ (runP ls T).caches := by
  intro T
  induction T with
  | zero =>
    intro hT
    rw [Nat.le_zero] at hT
    subst hT
    exact h
  | succ T ih =>
    intro hT
    rcases Nat.lt_or_ge t (T + 1) with hlt | hge
    · have hle : t ≤ T := Nat.lt_succ_iff.mp hlt
      rw [runP]
      exact stepP_caches_mono _ _ _ _ (ih hle)
    · have : t = T + 1 := Nat.le_antisymm hT hge
      subst this
      exact h

theorem runP_settles (ls : List Load) (l : Load) (hmem : l ∈ ls) (hok : l.ok = true) :
    (l.ref, l.comp) ∈ (runP ls l.time).caches := by
  rcases hl : l.time with _ | t
  · rw [runP]
    exact stepP_settles ls 0 initP l hmem hok hl
  · rw [runP]
    exact stepP_settles ls (t + 1) _ l hmem hok hl

theorem runP_fail_join (ls : List Load) (l : Load) (hmem : l ∈ ls) (hok : l.ok = false) :
    ∃ j, (runP ls l.time).join = some j ∧ j.2 ≤ l.time := by
  rcases hl : l.time with _ | t
  · rw [runP]
    exact stepP_fail_join ls 0 initP l hmem hok hl (by intro j h; cases h)
  · rw [runP]
    exact stepP_fail_join ls (t + 1) (runP ls t) l hmem hok hl
      (fun j h => Nat.le_succ_of_le (runP_join_time ls t j h))

/-- C4 counterexample: loads A (ref 1, fulfills at tick 2 with component 11)
    and B (ref 2, rejects at tick 1) started together. At tick 1 the
    `Promise.all` join has already settled (rejected) while A has not yet
    settled - its component is not yet cached - so the join did NOT complete
    only after every started load settled. At tick 2, A's continuation still
    runs and caches component 11: the failure did not abort the sibling load. -/
theorem c4_counterexample :
    (runP [⟨1, 2, true, 11⟩, ⟨2, 1, false, 0⟩] 1).join = some (false, 1) ∧
    (1, 11) ∉ (runP [⟨1, 2, true, 11⟩, ⟨2, 1, false, 0⟩] 1).caches ∧
    (runP [⟨1, 2, true, 11⟩, ⟨2, 1, false, 0⟩] 2).caches = [(1, 11)] ∧
    (runP [⟨1, 2, true, 11⟩, ⟨2, 1, false, 0⟩] 2).join = some (false, 1) := by
  refine ⟨by decide, by decide, by decide, by decide⟩

/-- C4 amended: when one of the loads started together rejects before a
    sibling load fulfills, the sibling is not aborted - its continuation still
    runs at its own settle tick and caches its component - but the
    `Promise.all` join short-circuits: it settles no later than the failure's
    tick, strictly before the sibling has settled, instead of waiting for all
    started loads to settle. -/
theorem c4_join_short_circuits (ls : List Load) (T : Nat) (lf lo : Load)
    (hf : lf ∈ ls) (ho : lo ∈ ls) (hfo : lf.ok = false) (hoo : lo.ok = true)
    (hlt : lf.time < lo.time) (hT : lo.time ≤ T) :
    (lo.ref, lo.comp) ∈ (runP ls T).caches ∧
    ∃ j, (runP ls T).join = some j ∧ j.2 ≤ lf.time ∧ j.2 < lo.time := by
  constructor
  · exact runP_caches_mono ls lo.time _ (runP_settles ls lo ho hoo) T hT
  · obtain ⟨j, hj, hjt⟩ := runP_fail_join ls lf hf hfo
    have hfT : lf.time ≤ T := Nat.le_of_lt (Nat.lt_of_lt_of_le hlt hT)
    exact ⟨j, runP_join_frozen ls lf.time j hj T hfT, hjt,
      Nat.lt_of_le_of_lt hjt hlt⟩

theorem c4_join_short_circuits_witness :
    (1, 11) ∈ (runP [⟨1, 2, true, 11⟩, ⟨2, 1, false, 0⟩] 2).caches ∧
    ∃ j, (runP [⟨1, 2, true, 11⟩, ⟨2, 1, false, 0⟩] 2).join = some j ∧
      j.2 ≤ 1 ∧ j.2 < 2 :=
  c4_join_short_circuits [⟨1, 2, true, 11⟩, ⟨2, 1, false, 0⟩] 2
    ⟨2, 1, false, 0⟩ ⟨1, 2, true, 11⟩ (by decide) (by decide) rfl rfl
    (by decide) (by decide)

end RouterV2

end Prouter
